import Mathlib

/-!
# CppCorp team partitioning: scorer and the four solvers

Shallow embedding of `tarea2/code/implementation/general.cpp` (the scorer and the
solvers are duplicated verbatim in `algorithms/*.cpp`).

* `long long` values are mathematical integers (`Int`) and sums are exact; the
  sentinels `LLONG_MAX` and `LLONG_MIN` the code starts its running minimum /
  maximum from are the real 64-bit constants.  Signed overflow is undefined in the
  source, so the theorems about sums are stated on `Bounded` inputs, on which no
  sum the scorer or a solver forms leaves the `long long` range.
* `vector<Employee>` is a `List Employee`; `int` indices are `Nat`.  Reading
  `employees[i]` past the end is undefined in the source; the model reads a
  default employee there and every theorem keeps its ranges inside the vector.
* `std::map<string,int>` is an association list kept sorted by key, so iterating
  it visits the keys in increasing order as the C++ container does.
* `for` loops over an index interval are folds over `List.range'`; the `while`
  loops and the recursion of the brute force take a fuel argument and return
  `none` when it runs out.
-/

namespace CppCorp

/-- An employee: productivity with the favourite language, productivity with any
other language, favourite language. -/
structure Employee where
  A : Int
  B : Int
  C : String
deriving DecidableEq, Repr

instance : Inhabited Employee := ⟨⟨0, 0, ""⟩⟩

def LLONG_MAX : Int := 9223372036854775807

def LLONG_MIN : Int := -9223372036854775808

/-- The statement `frequency[key]++` on a `std::map<string,int>`: the entry of
`key` is incremented, or created with count `1` at its sorted position.  Keys are
ordered as `std::string` orders them, lexicographically on their characters. -/
def mapIncrement : List (String × Nat) → String → List (String × Nat)
  | [], key => [(key, 1)]
  | (k, c) :: rest, key =>
    if key = k then (k, c + 1) :: rest
    else if key.toList < k.toList then (key, 1) :: (k, c) :: rest
    else (k, c) :: mapIncrement rest key

/-- The indices visited by `for (int i = l; i <= r; i++)`. -/
def loopIndices (l r : Nat) : List Nat := List.range' l (r + 1 - l)

/-- The first loop of `teamProductivity`: the frequency table of the favourite
languages in `[l, r]`. -/
def languageFrequency (employees : List Employee) (l r : Nat) : List (String × Nat) :=
  (loopIndices l r).foldl (fun frequency i => mapIncrement frequency (employees.getD i default).C) []

/-- The inner loop of `teamProductivity`: the total of the team `[l, r]` when the
team language is `lang`. -/
def candidateProductivity (employees : List Employee) (l r : Nat) (lang : String) : Int :=
  (loopIndices l r).foldl
    (fun productivity i =>
      if (employees.getD i default).C = lang then productivity + (employees.getD i default).A
      else productivity + (employees.getD i default).B)
    0

/-- Productivity of the team `[l, r]` (`teamProductivity` of the source). -/
def teamProductivity (employees : List Employee) (l r : Nat) : Int :=
  let frequency := languageFrequency employees l r
  let maxFreq := frequency.foldl (fun maxFreq pair => max maxFreq pair.2) 0
  let maxFreqLanguages := (frequency.filter (fun pair => pair.2 = maxFreq)).map Prod.fst
  maxFreqLanguages.foldl
    (fun minProductivity lang => min minProductivity (candidateProductivity employees l r lang))
    LLONG_MAX

/-- The recursion `bruteForceSolve(employees, start, n)`; `fuel` bounds the
recursion depth. -/
def bruteForceSolve (employees : List Employee) : Nat → Nat → Nat → Option Int
  | 0, _, _ => none
  | fuel + 1, start, n =>
    if start ≥ n then some 0
    else
      (List.range' start (n - start)).foldl
        (fun maxProd end_ =>
          match maxProd, bruteForceSolve employees fuel (end_ + 1) n with
          | some maxProd, some remainingProd =>
            some (max maxProd (teamProductivity employees start end_ + remainingProd))
          | _, _ => none)
        (some LLONG_MIN)

def solveBruteForce (employees : List Employee) : Option Int :=
  bruteForceSolve employees (employees.length + 1) 0 employees.length

/-- The inner `for` loop of `solveGreedy1` started at `currentPos`: the final
`(maxLocalProd, bestEnd)`. -/
def greedy1Scan (employees : List Employee) (currentPos n : Nat) : Int × Nat :=
  (List.range' currentPos (n - currentPos)).foldl
    (fun st end_ =>
      let prod := teamProductivity employees currentPos end_
      if prod > st.1 then (prod, end_) else st)
    (LLONG_MIN, currentPos)

/-- The `while` loop of `solveGreedy1` on the state `(totalProductivity, currentPos)`;
the result is the state at loop exit. -/
def greedy1Loop (employees : List Employee) (n : Nat) : Nat → Int × Nat → Option (Int × Nat)
  | 0, _ => none
  | fuel + 1, (totalProductivity, currentPos) =>
    if currentPos < n then
      let scan := greedy1Scan employees currentPos n
      greedy1Loop employees n fuel (totalProductivity + scan.1, scan.2 + 1)
    else some (totalProductivity, currentPos)

def solveGreedy1 (employees : List Employee) : Option Int :=
  (greedy1Loop employees employees.length (employees.length + 1) (0, 0)).map Prod.fst

/-- The inner `for` loop of `solveGreedy2` started at `currentPos`, from `next` on,
with the current `teamEnd`: the final `teamEnd`.  `count` is the number of values
of `next` left before `next < n` fails. -/
def greedy2Expand (employees : List Employee) (currentPos : Nat) : Nat → Nat → Nat → Nat
  | 0, _, teamEnd => teamEnd
  | count + 1, next, teamEnd =>
    let currentTeamProd := teamProductivity employees currentPos teamEnd
    let nextAloneProd := teamProductivity employees next next
    let expandedProd := teamProductivity employees currentPos next
    if expandedProd ≥ currentTeamProd + nextAloneProd then
      greedy2Expand employees currentPos count (next + 1) next
    else teamEnd

/-- The `while` loop of `solveGreedy2` on the state `(totalProductivity, currentPos)`;
the result is the state at loop exit. -/
def greedy2Loop (employees : List Employee) (n : Nat) : Nat → Int × Nat → Option (Int × Nat)
  | 0, _ => none
  | fuel + 1, (totalProductivity, currentPos) =>
    if currentPos < n then
      let teamEnd := greedy2Expand employees currentPos (n - (currentPos + 1)) (currentPos + 1) currentPos
      greedy2Loop employees n fuel
        (totalProductivity + teamProductivity employees currentPos teamEnd, teamEnd + 1)
    else some (totalProductivity, currentPos)

def solveGreedy2 (employees : List Employee) : Option Int :=
  (greedy2Loop employees employees.length (employees.length + 1) (0, 0)).map Prod.fst

/-- The table `dp` at the end of `solveDynamicProgramming`: `vector<long long> dp(n + 1)`
is zero-initialised, row `i` is reset to `LLONG_MIN` and then raised by every `j < i`. -/
def dpTable (employees : List Employee) : List Int :=
  let n := employees.length
  (List.range' 1 n).foldl
    (fun dp i =>
      (List.range' 0 i).foldl
        (fun dp j =>
          let teamProd := teamProductivity employees j (i - 1)
          dp.set i (max (dp.getD i 0) (dp.getD j 0 + teamProd)))
        (dp.set i LLONG_MIN))
    ((List.replicate (n + 1) (0 : Int)).set 0 0)

def solveDynamicProgramming (employees : List Employee) : Int :=
  (dpTable employees).getD employees.length 0


/-! ## Vocabulary of the specification -/

/-- Count stored for `key` in a frequency table (`0` when the key is absent). -/
def mapCount : List (String × Nat) → String → Nat
  | [], _ => 0
  | (k, c) :: rest, key => if key = k then c else mapCount rest key

/-- Keys strictly increasing: the shape of a `std::map` traversal. -/
def KeysSorted (m : List (String × Nat)) : Prop :=
  m.Pairwise (fun p q => p.1 < q.1)

/-- The employees of the team `[l, r]`, in order. -/
def team (employees : List Employee) (l r : Nat) : List Employee :=
  (loopIndices l r).map (fun i => employees.getD i default)

/-- Number of members of a team whose favourite language is `lang`. -/
def occurrences (xs : List Employee) (lang : String) : Nat :=
  (xs.map Employee.C).count lang

/-- Total of a team when `lang` is the team language. -/
def totalWith (xs : List Employee) (lang : String) : Int :=
  (xs.map (fun e => if e.C = lang then e.A else e.B)).sum

/-- Number of employees of `[l, r]` whose favourite language is `lang`. -/
def languageCount (employees : List Employee) (l r : Nat) (lang : String) : Nat :=
  ((Finset.Icc l r).filter (fun i => (employees.getD i default).C = lang)).card

/-- The candidate total of `[l, r]` for `lang`: `A_i` for the employees whose
favourite language is `lang`, `B_i` for the others. -/
def candidateTotal (employees : List Employee) (l r : Nat) (lang : String) : Int :=
  ∑ i ∈ Finset.Icc l r,
    (if (employees.getD i default).C = lang then (employees.getD i default).A
     else (employees.getD i default).B)

/-- The language `lang` occurs in `[l, r]` at least as often as every language. -/
def IsMaxFreqLanguage (employees : List Employee) (l r : Nat) (lang : String) : Prop :=
  ∀ other : String, languageCount employees l r other ≤ languageCount employees l r lang

/-- Largest absolute value among the two productivities of an employee. -/
def magnitude (e : Employee) : Int := max |e.A| |e.B|

/-- The input is bounded: the magnitudes of all employees add up to at most
`LLONG_MAX`, so that no sum the scorer or a solver forms leaves the 64-bit range. -/
def Bounded (employees : List Employee) : Prop :=
  (employees.map magnitude).sum ≤ LLONG_MAX

instance (employees : List Employee) : Decidable (Bounded employees) := by
  unfold Bounded; infer_instance

/-- The list `ranges` cuts `[start, n)` into contiguous non-empty ranges `[l, r]`
listed in increasing order, without gaps or overlaps. -/
def IsPartition : Nat → Nat → List (Nat × Nat) → Prop
  | start, n, [] => start = n
  | start, n, (l, r) :: rest => l = start ∧ l ≤ r ∧ r < n ∧ IsPartition (r + 1) n rest

/-- Sum of the team productivities of the ranges of a partition. -/
def partitionValue (employees : List Employee) (ranges : List (Nat × Nat)) : Int :=
  (ranges.map (fun p => teamProductivity employees p.1 p.2)).sum

/-- The value `v` is the maximum of `partitionValue` over the partitions of `[start, n)`. -/
def IsMaxPartitionValue (employees : List Employee) (start n : Nat) (v : Int) : Prop :=
  (∃ ranges, IsPartition start n ranges ∧ partitionValue employees ranges = v) ∧
  ∀ ranges, IsPartition start n ranges → partitionValue employees ranges ≤ v

/-- The language `lang` is one of the most frequent favourite languages of the team. -/
def IsTop (xs : List Employee) (lang : String) : Prop :=
  ∀ other : String, occurrences xs other ≤ occurrences xs lang

/-- Sum of the magnitudes of the first `k` employees. -/
def weightBefore (employees : List Employee) (k : Nat) : Int :=
  ((employees.take k).map magnitude).sum

/-- The table after the rows `1 .. m` have been filled. -/
def dpRows (employees : List Employee) (m : Nat) : List Int :=
  (List.range' 1 m).foldl
    (fun dp i =>
      (List.range' 0 i).foldl
        (fun dp j =>
          let teamProd := teamProductivity employees j (i - 1)
          dp.set i (max (dp.getD i 0) (dp.getD j 0 + teamProd)))
        (dp.set i LLONG_MIN))
    ((List.replicate (employees.length + 1) (0 : Int)).set 0 0)

/-- Sum of the primary productivities of the first `k` employees. -/
def primaryBefore (employees : List Employee) (k : Nat) : Int :=
  ((employees.take k).map Employee.A).sum

/-- The employee with its favourite language renamed by `f`. -/
def renameLanguage (f : String → String) (e : Employee) : Employee := ⟨e.A, e.B, f e.C⟩

/-- The employee sequence with every favourite language renamed by `f`. -/
def renameLanguages (f : String → String) (employees : List Employee) : List Employee :=
  employees.map (renameLanguage f)

/-- A sequence of three employees with non-negative productivities on which greedy 2
rejects the second employee and closes `[0, 0]`, `[1, 2]`, while the best partition is
the single team `[0, 2]`. -/
def greedy2Adversary (V : Int) : List Employee :=
  [⟨1, 0, "a"⟩, ⟨0, V, "b"⟩, ⟨0, 0, "a"⟩]

/-! ## The frequency table -/

theorem mapCount_eq_zero_of_lt (m : List (String × Nat)) (key : String)
    (h : ∀ p ∈ m, key < p.1) : mapCount m key = 0 := by
  induction m with
  | nil => rfl
  | cons p rest ih =>
    obtain ⟨k, c⟩ := p
    have hk : key < k := h (k, c) (List.mem_cons_self _ _)
    have hne : key ≠ k := ne_of_lt hk
    simp only [mapCount, hne, if_false]
    exact ih (fun q hq => h q (List.mem_cons_of_mem _ hq))

theorem mapIncrement_cons_eq (k : String) (c : Nat) (rest : List (String × Nat)) :
    mapIncrement ((k, c) :: rest) k = (k, c + 1) :: rest := by
  simp only [mapIncrement, if_true]

theorem mapIncrement_cons_lt (key k : String) (c : Nat) (rest : List (String × Nat))
    (h1 : key ≠ k) (h2 : key < k) :
    mapIncrement ((k, c) :: rest) key = (key, 1) :: (k, c) :: rest := by
  have h2' : key.toList < k.toList := String.lt_iff_toList_lt.mp h2
  simp only [mapIncrement, if_neg h1, if_pos h2']

theorem mapIncrement_cons_gt (key k : String) (c : Nat) (rest : List (String × Nat))
    (h1 : key ≠ k) (h2 : ¬ key < k) :
    mapIncrement ((k, c) :: rest) key = (k, c) :: mapIncrement rest key := by
  have h2' : ¬ key.toList < k.toList := fun h => h2 (String.lt_iff_toList_lt.mpr h)
  simp only [mapIncrement, if_neg h1, if_neg h2']

theorem mapCount_mapIncrement (m : List (String × Nat)) (key k : String)
    (hs : KeysSorted m) :
    mapCount (mapIncrement m key) k = mapCount m k + (if k = key then 1 else 0) := by
  induction m with
  | nil =>
    by_cases hk : k = key <;> simp [mapIncrement, mapCount, hk]
  | cons p rest ih =>
    obtain ⟨k0, c0⟩ := p
    have hs' := List.pairwise_cons.mp hs
    by_cases h1 : key = k0
    · subst h1
      rw [mapIncrement_cons_eq]
      by_cases hk : k = key <;> simp [mapCount, hk]
    · by_cases h2 : key < k0
      · rw [mapIncrement_cons_lt _ _ _ _ h1 h2]
        have hz : mapCount rest key = 0 := by
          apply mapCount_eq_zero_of_lt
          intro q hq
          exact lt_trans h2 (hs'.1 q hq)
        by_cases hk : k = key
        · subst hk
          simp [mapCount, h1, hz]
        · simp [mapCount, hk]
      · rw [mapIncrement_cons_gt _ _ _ _ h1 h2]
        by_cases hk0 : k = k0
        · subst hk0
          have : ¬ k = key := fun h => h1 h.symm
          simp [mapCount, this]
        · simp [mapCount, hk0, ih hs'.2]

theorem mem_mapIncrement_key (m : List (String × Nat)) (key : String) :
    ∀ p ∈ mapIncrement m key, p.1 = key ∨ p ∈ m := by
  induction m with
  | nil => intro p hp; simp [mapIncrement] at hp; left; rw [hp]
  | cons q rest ih =>
    obtain ⟨k0, c0⟩ := q
    intro p hp
    by_cases h1 : key = k0
    · subst h1
      rw [mapIncrement_cons_eq] at hp
      rcases List.mem_cons.mp hp with hp | hp
      · left; rw [hp]
      · right; exact List.mem_cons_of_mem _ hp
    · by_cases h2 : key < k0
      · rw [mapIncrement_cons_lt _ _ _ _ h1 h2] at hp
        simp only [List.mem_cons] at hp
        rcases hp with hp | hp | hp
        · left; rw [hp]
        · right; rw [hp]; exact List.mem_cons_self _ _
        · right; exact List.mem_cons_of_mem _ hp
      · rw [mapIncrement_cons_gt _ _ _ _ h1 h2] at hp
        rcases List.mem_cons.mp hp with hp | hp
        · right; rw [hp]; exact List.mem_cons_self _ _
        · rcases ih p hp with h | h
          · left; exact h
          · right; exact List.mem_cons_of_mem _ h

theorem keysSorted_mapIncrement (m : List (String × Nat)) (key : String)
    (hs : KeysSorted m) : KeysSorted (mapIncrement m key) := by
  induction m with
  | nil => simp [mapIncrement, KeysSorted]
  | cons q rest ih =>
    obtain ⟨k0, c0⟩ := q
    have hs' := List.pairwise_cons.mp hs
    by_cases h1 : key = k0
    · subst h1
      rw [mapIncrement_cons_eq]
      exact List.pairwise_cons.mpr ⟨hs'.1, hs'.2⟩
    · by_cases h2 : key < k0
      · rw [mapIncrement_cons_lt _ _ _ _ h1 h2]
        have hlt : key < k0 := h2
        refine List.pairwise_cons.mpr ⟨?_, hs⟩
        intro p hp
        rcases List.mem_cons.mp hp with hp | hp
        · rw [hp]; exact hlt
        · exact lt_trans hlt (hs'.1 p hp)
      · rw [mapIncrement_cons_gt _ _ _ _ h1 h2]
        have hlt : k0 < key := by
          rcases lt_trichotomy key k0 with h | h | h
          · exact absurd h h2
          · exact absurd h h1
          · exact h
        refine List.pairwise_cons.mpr ⟨?_, ih hs'.2⟩
        intro p hp
        rcases mem_mapIncrement_key rest key p hp with h | h
        · rw [h]; exact hlt
        · exact hs'.1 p h

theorem pos_mapIncrement (m : List (String × Nat)) (key : String)
    (hp : ∀ p ∈ m, 0 < p.2) : ∀ p ∈ mapIncrement m key, 0 < p.2 := by
  induction m with
  | nil => intro p h; simp [mapIncrement] at h; rw [h]; exact Nat.one_pos
  | cons q rest ih =>
    obtain ⟨k0, c0⟩ := q
    intro p h
    by_cases h1 : key = k0
    · subst h1
      rw [mapIncrement_cons_eq] at h
      rcases List.mem_cons.mp h with h | h
      · rw [h]; exact Nat.succ_pos _
      · exact hp p (List.mem_cons_of_mem _ h)
    · by_cases h2 : key < k0
      · rw [mapIncrement_cons_lt _ _ _ _ h1 h2] at h
        simp only [List.mem_cons] at h
        rcases h with h | h | h
        · rw [h]; exact Nat.one_pos
        · rw [h]; exact hp (k0, c0) (List.mem_cons_self _ _)
        · exact hp p (List.mem_cons_of_mem _ h)
      · rw [mapIncrement_cons_gt _ _ _ _ h1 h2] at h
        rcases List.mem_cons.mp h with h | h
        · rw [h]; exact hp (k0, c0) (List.mem_cons_self _ _)
        · exact ih (fun q hq => hp q (List.mem_cons_of_mem _ hq)) p h

/-- In a table with sorted keys an entry is present exactly when it is the stored count. -/
theorem mem_iff_mapCount (m : List (String × Nat)) (hs : KeysSorted m)
    (hp : ∀ p ∈ m, 0 < p.2) (k : String) (c : Nat) :
    (k, c) ∈ m ↔ 0 < c ∧ mapCount m k = c := by
  induction m with
  | nil =>
    simp only [List.not_mem_nil, mapCount, false_iff, not_and]
    intro h1 h2; omega
  | cons q rest ih =>
    obtain ⟨k0, c0⟩ := q
    have hs' := List.pairwise_cons.mp hs
    have hp' : ∀ p ∈ rest, 0 < p.2 := fun p h => hp p (List.mem_cons_of_mem _ h)
    have hc0 : 0 < c0 := hp (k0, c0) (List.mem_cons_self _ _)
    by_cases hk : k = k0
    · subst hk
      simp only [List.mem_cons, Prod.mk.injEq, true_and, mapCount, if_true]
      constructor
      · rintro (h | h)
        · subst h; exact ⟨hc0, rfl⟩
        · exact absurd (hs'.1 _ h) (lt_irrefl _)
      · rintro ⟨_, h⟩; left; exact h.symm
    · simp only [List.mem_cons, Prod.mk.injEq, hk, false_and, false_or, mapCount, if_false]
      exact ih hs'.2 hp'

theorem foldl_mapIncrement_inv (langs : List String) (m0 : List (String × Nat))
    (hs : KeysSorted m0) (hp : ∀ p ∈ m0, 0 < p.2) :
    KeysSorted (langs.foldl mapIncrement m0) ∧
    (∀ p ∈ langs.foldl mapIncrement m0, 0 < p.2) ∧
    ∀ k, mapCount (langs.foldl mapIncrement m0) k = mapCount m0 k + langs.count k := by
  induction langs generalizing m0 with
  | nil => exact ⟨hs, hp, fun k => by simp⟩
  | cons key rest ih =>
    have h := ih (mapIncrement m0 key) (keysSorted_mapIncrement m0 key hs)
      (pos_mapIncrement m0 key hp)
    refine ⟨h.1, h.2.1, fun k => ?_⟩
    rw [List.foldl_cons, h.2.2 k, mapCount_mapIncrement m0 key k hs, List.count_cons]
    by_cases hk : k = key
    · subst hk; simp; omega
    · have hk' : ¬ key = k := fun h => hk h.symm
      simp [hk, hk']

theorem languageFrequency_eq (employees : List Employee) (l r : Nat) :
    languageFrequency employees l r
      = ((team employees l r).map Employee.C).foldl mapIncrement [] := by
  unfold languageFrequency team
  rw [List.map_map, List.foldl_map]
  rfl

theorem foldl_add_eq_sum (g : Nat → Int) (idx : List Nat) (init : Int) :
    idx.foldl (fun s i => s + g i) init = init + (idx.map g).sum := by
  induction idx generalizing init with
  | nil => simp
  | cons i rest ih => rw [List.foldl_cons, ih, List.map_cons, List.sum_cons]; ring

theorem candidateProductivity_eq_sum (employees : List Employee) (l r : Nat) (lang : String) :
    candidateProductivity employees l r lang
      = ((loopIndices l r).map (fun i =>
          if (employees.getD i default).C = lang then (employees.getD i default).A
          else (employees.getD i default).B)).sum := by
  unfold candidateProductivity
  have h : (fun (productivity : Int) (i : Nat) =>
        if (employees.getD i default).C = lang then productivity + (employees.getD i default).A
        else productivity + (employees.getD i default).B)
      = (fun s i => s + (if (employees.getD i default).C = lang then (employees.getD i default).A
          else (employees.getD i default).B)) := by
    funext s i
    split <;> rfl
  rw [h, foldl_add_eq_sum, zero_add]

theorem candidateProductivity_eq_totalWith (employees : List Employee) (l r : Nat)
    (lang : String) :
    candidateProductivity employees l r lang = totalWith (team employees l r) lang := by
  rw [candidateProductivity_eq_sum]
  unfold totalWith team
  rw [List.map_map]
  rfl

theorem candidateProductivity_eq_candidateTotal (employees : List Employee) (l r : Nat)
    (lang : String) :
    candidateProductivity employees l r lang = candidateTotal employees l r lang := by
  rw [candidateProductivity_eq_sum]
  rfl

theorem occurrences_team (employees : List Employee) (l r : Nat) (lang : String) :
    occurrences (team employees l r) lang = languageCount employees l r lang := by
  unfold occurrences team languageCount loopIndices
  rw [List.map_map, List.count, List.countP_map]
  simp only [Finset.card, Finset.filter, Finset.Icc, LocallyFiniteOrder.finsetIcc]
  rw [Multiset.filter_coe, Multiset.coe_card, List.countP_eq_length_filter]
  congr 1

theorem mapCount_languageFrequency (employees : List Employee) (l r : Nat) (lang : String) :
    mapCount (languageFrequency employees l r) lang = occurrences (team employees l r) lang := by
  rw [languageFrequency_eq]
  have h := (foldl_mapIncrement_inv ((team employees l r).map Employee.C) []
    List.Pairwise.nil (fun p hp => absurd hp (List.not_mem_nil p))).2.2 lang
  rw [h]
  simp [mapCount, occurrences]

theorem mem_languageFrequency (employees : List Employee) (l r : Nat) (lang : String) (c : Nat) :
    (lang, c) ∈ languageFrequency employees l r
      ↔ 0 < c ∧ occurrences (team employees l r) lang = c := by
  rw [← mapCount_languageFrequency]
  have h := foldl_mapIncrement_inv ((team employees l r).map Employee.C) []
    List.Pairwise.nil (fun p hp => absurd hp (List.not_mem_nil p))
  rw [languageFrequency_eq]
  exact mem_iff_mapCount _ h.1 h.2.1 lang c

/-! ## The maximum frequency and the running minimum -/

theorem foldl_maxFreq_spec (m : List (String × Nat)) (init : Nat) :
    init ≤ m.foldl (fun maxFreq pair => max maxFreq pair.2) init ∧
    (∀ p ∈ m, p.2 ≤ m.foldl (fun maxFreq pair => max maxFreq pair.2) init) ∧
    (m.foldl (fun maxFreq pair => max maxFreq pair.2) init = init ∨
      ∃ p ∈ m, p.2 = m.foldl (fun maxFreq pair => max maxFreq pair.2) init) := by
  induction m generalizing init with
  | nil => simp
  | cons q rest ih =>
    rw [List.foldl_cons]
    obtain ⟨h1, h2, h3⟩ := ih (max init q.2)
    refine ⟨le_trans (le_max_left _ _) h1, ?_, ?_⟩
    · intro p hp
      rcases List.mem_cons.mp hp with hp | hp
      · rw [hp]; exact le_trans (le_max_right _ _) h1
      · exact h2 p hp
    · rcases h3 with h3 | ⟨p, hp, h3⟩
      · rcases max_choice init q.2 with hm | hm
        · left; rw [h3, hm]
        · right; exact ⟨q, List.mem_cons_self _ _, by rw [h3, hm]⟩
      · right; exact ⟨p, List.mem_cons_of_mem _ hp, h3⟩

theorem foldl_min_spec (langs : List String) (g : String → Int) (init : Int) :
    langs.foldl (fun minProductivity lang => min minProductivity (g lang)) init ≤ init ∧
    (∀ lang ∈ langs,
      langs.foldl (fun minProductivity lang => min minProductivity (g lang)) init ≤ g lang) ∧
    (langs.foldl (fun minProductivity lang => min minProductivity (g lang)) init = init ∨
      ∃ lang ∈ langs,
        langs.foldl (fun minProductivity lang => min minProductivity (g lang)) init = g lang) := by
  induction langs generalizing init with
  | nil => simp
  | cons q rest ih =>
    rw [List.foldl_cons]
    obtain ⟨h1, h2, h3⟩ := ih (min init (g q))
    refine ⟨le_trans h1 (min_le_left _ _), ?_, ?_⟩
    · intro p hp
      rcases List.mem_cons.mp hp with hp | hp
      · rw [hp]; exact le_trans h1 (min_le_right _ _)
      · exact h2 p hp
    · rcases h3 with h3 | ⟨p, hp, h3⟩
      · rcases min_choice init (g q) with hm | hm
        · left; rw [h3, hm]
        · right; exact ⟨q, List.mem_cons_self _ _, by rw [h3, hm]⟩
      · right; exact ⟨p, List.mem_cons_of_mem _ hp, h3⟩

/-! ## The scorer on a non-empty team -/

theorem occurrences_head_pos (e : Employee) (xs : List Employee) :
    0 < occurrences (e :: xs) e.C := by
  unfold occurrences
  rw [List.map_cons, List.count_cons_self]
  exact Nat.succ_pos _

theorem mem_maxFreqLanguages (employees : List Employee) (l r : Nat)
    (hne : team employees l r ≠ []) (lang : String) :
    lang ∈ ((languageFrequency employees l r).filter
        (fun pair => pair.2 =
          (languageFrequency employees l r).foldl (fun maxFreq pair => max maxFreq pair.2) 0)).map
        Prod.fst
      ↔ IsTop (team employees l r) lang := by
  obtain ⟨h1, h2, h3⟩ := foldl_maxFreq_spec (languageFrequency employees l r) 0
  generalize hmf : (languageFrequency employees l r).foldl
    (fun maxFreq pair => max maxFreq pair.2) 0 = maxFreq at h1 h2 h3 ⊢
  have hle : ∀ other, occurrences (team employees l r) other ≤ maxFreq := by
    intro other
    by_cases hz : occurrences (team employees l r) other = 0
    · omega
    · exact h2 (other, occurrences (team employees l r) other)
        ((mem_languageFrequency employees l r other _).mpr ⟨Nat.pos_of_ne_zero hz, rfl⟩)
  have hpos : 0 < maxFreq := by
    obtain ⟨e, rest, hx⟩ := List.exists_cons_of_ne_nil hne
    have := hle e.C
    have hp := occurrences_head_pos e rest
    rw [← hx] at hp
    omega
  have key : lang ∈ ((languageFrequency employees l r).filter
        (fun pair => pair.2 = maxFreq)).map Prod.fst
      ↔ (lang, maxFreq) ∈ languageFrequency employees l r := by
    simp
  rw [key]
  constructor
  · intro hc
    intro other
    have := (mem_languageFrequency employees l r lang maxFreq).mp hc
    rw [this.2]
    exact hle other
  · intro htop
    rcases h3 with h3 | ⟨p, hp, h3⟩
    · omega
    · have hp' := (mem_languageFrequency employees l r p.1 p.2).mp hp
      have h4 : occurrences (team employees l r) p.1 ≤ occurrences (team employees l r) lang :=
        htop p.1
      have h5 := hle lang
      have h6 : occurrences (team employees l r) lang = maxFreq := by omega
      exact (mem_languageFrequency employees l r lang maxFreq).mpr ⟨hpos, h6⟩

theorem exists_isTop (employees : List Employee) (l r : Nat)
    (hne : team employees l r ≠ []) : ∃ lang, IsTop (team employees l r) lang := by
  obtain ⟨h1, h2, h3⟩ := foldl_maxFreq_spec (languageFrequency employees l r) 0
  obtain ⟨e, rest, hx⟩ := List.exists_cons_of_ne_nil hne
  have hp := occurrences_head_pos e rest
  rw [← hx] at hp
  have hmem := (mem_languageFrequency employees l r e.C _).mpr ⟨hp, rfl⟩
  have hge := h2 _ hmem
  rcases h3 with h3 | ⟨p, hp', h3⟩
  · rw [h3] at hge
    simp only at hge
    omega
  · refine ⟨p.1, (mem_maxFreqLanguages employees l r hne p.1).mp ?_⟩
    simp only [List.mem_map, List.mem_filter, decide_eq_true_eq]
    exact ⟨p, ⟨hp', h3⟩, rfl⟩

/-- What the scorer returns on a non-empty team: the running minimum, started at
`LLONG_MAX`, of the totals of the most frequent languages. -/
theorem teamProductivity_spec (employees : List Employee) (l r : Nat)
    (hne : team employees l r ≠ []) :
    teamProductivity employees l r ≤ LLONG_MAX ∧
    (∀ lang, IsTop (team employees l r) lang →
      teamProductivity employees l r ≤ totalWith (team employees l r) lang) ∧
    (teamProductivity employees l r = LLONG_MAX ∨
      ∃ lang, IsTop (team employees l r) lang ∧
        teamProductivity employees l r = totalWith (team employees l r) lang) := by
  unfold teamProductivity
  simp only []
  obtain ⟨h1, h2, h3⟩ := foldl_min_spec
    (((languageFrequency employees l r).filter
        (fun pair => pair.2 =
          (languageFrequency employees l r).foldl (fun maxFreq pair => max maxFreq pair.2) 0)).map
        Prod.fst)
    (candidateProductivity employees l r) LLONG_MAX
  refine ⟨h1, ?_, ?_⟩
  · intro lang htop
    rw [← candidateProductivity_eq_totalWith]
    exact h2 lang ((mem_maxFreqLanguages employees l r hne lang).mpr htop)
  · rcases h3 with h3 | ⟨lang, hl, h3⟩
    · left; exact h3
    · right
      refine ⟨lang, (mem_maxFreqLanguages employees l r hne lang).mp hl, ?_⟩
      rw [← candidateProductivity_eq_totalWith]
      exact h3

theorem team_ne_nil (employees : List Employee) (l r : Nat) (hlr : l ≤ r) :
    team employees l r ≠ [] := by
  unfold team loopIndices
  intro h
  have := congrArg List.length h
  simp at this
  omega

theorem team_eq_slice (employees : List Employee) (l r : Nat) (hr : r < employees.length) :
    team employees l r = (employees.drop l).take (r + 1 - l) := by
  unfold team loopIndices
  apply List.ext_getElem
  · simp; omega
  · intro i h1 h2
    simp at h1 h2
    simp [List.getD_eq_getElem?_getD]
    rw [List.getElem?_eq_getElem (by omega)]
    simp

/-! ## Bounds on the score -/

theorem magnitude_nonneg (e : Employee) : 0 ≤ magnitude e :=
  le_trans (abs_nonneg e.A) (le_max_left _ _)

theorem weight_nonneg (xs : List Employee) : 0 ≤ (xs.map magnitude).sum := by
  apply List.sum_nonneg
  intro x hx
  obtain ⟨e, _, rfl⟩ := List.mem_map.mp hx
  exact magnitude_nonneg e

theorem totalWith_bounds (xs : List Employee) (lang : String) :
    -(xs.map magnitude).sum ≤ totalWith xs lang ∧ totalWith xs lang ≤ (xs.map magnitude).sum := by
  unfold totalWith
  induction xs with
  | nil => simp
  | cons e rest ih =>
    simp only [List.map_cons, List.sum_cons]
    have hA : |e.A| ≤ magnitude e := le_max_left _ _
    have hB : |e.B| ≤ magnitude e := le_max_right _ _
    have hA1 := abs_le.mp hA
    have hB1 := abs_le.mp hB
    split <;> constructor <;> linarith [ih.1, ih.2]

theorem weightBefore_mono (employees : List Employee) (a b : Nat) (h : a ≤ b) :
    weightBefore employees a ≤ weightBefore employees b := by
  unfold weightBefore
  obtain ⟨d, rfl⟩ := Nat.exists_eq_add_of_le h
  rw [List.take_add, List.map_append, List.sum_append]
  linarith [weight_nonneg ((employees.drop a).take d)]

theorem weightBefore_nonneg (employees : List Employee) (k : Nat) :
    0 ≤ weightBefore employees k := weight_nonneg _

theorem weightBefore_le_total (employees : List Employee) (k : Nat) :
    weightBefore employees k ≤ (employees.map magnitude).sum := by
  have h := weightBefore_mono employees k (max k employees.length) (le_max_left _ _)
  unfold weightBefore at h ⊢
  rw [List.take_of_length_le (le_max_right _ _)] at h
  exact h

theorem team_weight (employees : List Employee) (l r : Nat) (hlr : l ≤ r)
    (hr : r < employees.length) :
    ((team employees l r).map magnitude).sum
      = weightBefore employees (r + 1) - weightBefore employees l := by
  rw [team_eq_slice employees l r hr]
  unfold weightBefore
  have h : r + 1 = l + (r + 1 - l) := by omega
  conv_rhs => rw [h, List.take_add, List.map_append, List.sum_append]
  ring

theorem teamProductivity_lower (employees : List Employee) (l r : Nat) (hlr : l ≤ r)
    (hr : r < employees.length) :
    -(weightBefore employees (r + 1) - weightBefore employees l)
      ≤ teamProductivity employees l r := by
  obtain ⟨_, _, h3⟩ := teamProductivity_spec employees l r (team_ne_nil employees l r hlr)
  rw [← team_weight employees l r hlr hr]
  rcases h3 with h3 | ⟨lang, _, h3⟩
  · rw [h3]
    have := weight_nonneg (team employees l r)
    have : (0 : Int) ≤ LLONG_MAX := by decide
    linarith
  · rw [h3]
    exact (totalWith_bounds _ lang).1

theorem totalWith_team_le (employees : List Employee) (l r : Nat) (hlr : l ≤ r)
    (hr : r < employees.length) (hb : Bounded employees) (lang : String) :
    totalWith (team employees l r) lang ≤ LLONG_MAX := by
  have h1 := (totalWith_bounds (team employees l r) lang).2
  rw [team_weight employees l r hlr hr] at h1
  have h2 := weightBefore_le_total employees (r + 1)
  have h3 := weightBefore_nonneg employees l
  unfold Bounded at hb
  linarith

/-! ## Partitions -/

theorem partitionValue_lower (employees : List Employee) (ranges : List (Nat × Nat)) :
    ∀ a b : Nat, b ≤ employees.length → IsPartition a b ranges →
      -(weightBefore employees b - weightBefore employees a)
        ≤ partitionValue employees ranges := by
  induction ranges with
  | nil =>
    intro a b _ h
    have hab : a = b := h
    subst hab
    simp [partitionValue]
  | cons p rest ih =>
    obtain ⟨l, r⟩ := p
    intro a b hb h
    obtain ⟨h1, h2, h3, h4⟩ := h
    subst h1
    have ih' := ih (r + 1) b hb h4
    have ht := teamProductivity_lower employees l r h2 (by omega)
    unfold partitionValue at ih' ⊢
    simp only [List.map_cons, List.sum_cons]
    linarith

/-- On a bounded input no partition of a sub-interval is worth less than `LLONG_MIN`. -/
theorem partitionValue_ge_min (employees : List Employee) (hb : Bounded employees)
    (a b : Nat) (hle : b ≤ employees.length) (ranges : List (Nat × Nat))
    (h : IsPartition a b ranges) : LLONG_MIN ≤ partitionValue employees ranges := by
  have h1 := partitionValue_lower employees ranges a b hle h
  have h2 := weightBefore_le_total employees b
  have h3 := weightBefore_nonneg employees a
  unfold Bounded at hb
  have h4 : LLONG_MIN ≤ -LLONG_MAX := by decide
  linarith

theorem isPartition_le (ranges : List (Nat × Nat)) :
    ∀ a b : Nat, IsPartition a b ranges → a ≤ b := by
  induction ranges with
  | nil => intro a b h; exact le_of_eq h
  | cons p rest ih =>
    obtain ⟨l, r⟩ := p
    intro a b h
    obtain ⟨h1, h2, _, h4⟩ := h
    have := ih (r + 1) b h4
    omega

theorem isPartition_single (a r : Nat) (h : a ≤ r) : IsPartition a (r + 1) [(a, r)] :=
  ⟨rfl, h, Nat.lt_succ_self r, rfl⟩

theorem isPartition_append (P Q : List (Nat × Nat)) :
    ∀ a b c : Nat, IsPartition a b P → IsPartition b c Q → IsPartition a c (P ++ Q) := by
  induction P with
  | nil =>
    intro a b c h1 h2
    have hab : a = b := h1
    subst hab
    exact h2
  | cons p rest ih =>
    obtain ⟨l, r⟩ := p
    intro a b c h1 h2
    obtain ⟨e1, e2, e3, e4⟩ := h1
    have hbc := isPartition_le Q b c h2
    exact ⟨e1, e2, by omega, ih (r + 1) b c e4 h2⟩

theorem partitionValue_append (employees : List Employee) (P Q : List (Nat × Nat)) :
    partitionValue employees (P ++ Q) = partitionValue employees P + partitionValue employees Q := by
  unfold partitionValue
  rw [List.map_append, List.sum_append]

theorem partitionValue_cons (employees : List Employee) (p : Nat × Nat)
    (Q : List (Nat × Nat)) :
    partitionValue employees (p :: Q)
      = teamProductivity employees p.1 p.2 + partitionValue employees Q := by
  unfold partitionValue
  rw [List.map_cons, List.sum_cons]

/-- A partition of a non-empty interval ends with a last range `[j, b - 1]`. -/
theorem isPartition_snoc_inv (P : List (Nat × Nat)) :
    ∀ a b : Nat, a < b → IsPartition a b P →
      ∃ Q j, P = Q ++ [(j, b - 1)] ∧ IsPartition a j Q ∧ j < b := by
  induction P with
  | nil => intro a b hab h; have : a = b := h; omega
  | cons p rest ih =>
    obtain ⟨l, r⟩ := p
    intro a b hab h
    obtain ⟨e1, e2, e3, e4⟩ := h
    subst e1
    by_cases hr : r + 1 = b
    · have hrest : rest = [] := by
        cases rest with
        | nil => rfl
        | cons q rest' =>
          obtain ⟨l', r'⟩ := q
          obtain ⟨f1, f2, f3, _⟩ := e4
          omega
      subst hrest
      refine ⟨[], l, ?_, rfl, hab⟩
      simp; omega
    · have hlt : r + 1 < b := by omega
      obtain ⟨Q, j, hQ, hQ1, hQ2⟩ := ih (r + 1) b hlt e4
      refine ⟨(l, r) :: Q, j, by rw [hQ]; rfl, ⟨rfl, e2, ?_, hQ1⟩, hQ2⟩
      have := isPartition_le Q (r + 1) j hQ1
      omega

/-! ## Running maxima -/

theorem foldl_max_spec (L : List Nat) (h : Nat → Int) (init : Int) :
    init ≤ L.foldl (fun m e => max m (h e)) init ∧
    (∀ e ∈ L, h e ≤ L.foldl (fun m e => max m (h e)) init) ∧
    (L.foldl (fun m e => max m (h e)) init = init ∨
      ∃ e ∈ L, L.foldl (fun m e => max m (h e)) init = h e) := by
  induction L generalizing init with
  | nil => simp
  | cons q rest ih =>
    rw [List.foldl_cons]
    obtain ⟨h1, h2, h3⟩ := ih (max init (h q))
    refine ⟨le_trans (le_max_left _ _) h1, ?_, ?_⟩
    · intro p hp
      rcases List.mem_cons.mp hp with hp | hp
      · rw [hp]; exact le_trans (le_max_right _ _) h1
      · exact h2 p hp
    · rcases h3 with h3 | ⟨p, hp, h3⟩
      · rcases max_choice init (h q) with hm | hm
        · left; rw [h3, hm]
        · right; exact ⟨q, List.mem_cons_self _ _, by rw [h3, hm]⟩
      · right; exact ⟨p, List.mem_cons_of_mem _ hp, h3⟩

theorem foldl_some (L : List Nat) (step : Option Int → Nat → Option Int) (h : Nat → Int)
    (hstep : ∀ m e, e ∈ L → step (some m) e = some (max m (h e))) (init : Int) :
    L.foldl step (some init) = some (L.foldl (fun m e => max m (h e)) init) := by
  induction L generalizing init with
  | nil => rfl
  | cons q rest ih =>
    rw [List.foldl_cons, List.foldl_cons, hstep init q (List.mem_cons_self _ _)]
    exact ih (fun m e he => hstep m e (List.mem_cons_of_mem _ he)) _

/-- The maximum over the partitions of an interval is unique. -/
theorem isMaxPartitionValue_unique (employees : List Employee) (start n : Nat) (v w : Int)
    (hv : IsMaxPartitionValue employees start n v)
    (hw : IsMaxPartitionValue employees start n w) : v = w := by
  obtain ⟨⟨P, hP, hPv⟩, hvmax⟩ := hv
  obtain ⟨⟨Q, hQ, hQw⟩, hwmax⟩ := hw
  have h1 := hvmax Q hQ
  have h2 := hwmax P hP
  omega

theorem isMaxPartitionValue_empty (employees : List Employee) (n : Nat) :
    IsMaxPartitionValue employees n n 0 := by
  refine ⟨⟨[], rfl, rfl⟩, ?_⟩
  intro P hP
  cases P with
  | nil => exact le_of_eq rfl
  | cons p rest =>
    obtain ⟨l, r⟩ := p
    obtain ⟨h1, h2, h3, _⟩ := hP
    omega

/-- The maximum over the partitions of `[start, n)` from the maxima over the
partitions that remain after each possible first range. -/
theorem isMaxPartitionValue_first (employees : List Employee) (start n : Nat) (hlt : start < n)
    (hlow : ∀ P, IsPartition start n P → LLONG_MIN ≤ partitionValue employees P)
    (val : Nat → Int)
    (hval : ∀ e, start ≤ e → e < n → IsMaxPartitionValue employees (e + 1) n (val e)) :
    IsMaxPartitionValue employees start n
      ((List.range' start (n - start)).foldl
        (fun m e => max m (teamProductivity employees start e + val e)) LLONG_MIN) := by
  obtain ⟨h1, h2, h3⟩ := foldl_max_spec (List.range' start (n - start))
    (fun e => teamProductivity employees start e + val e) LLONG_MIN
  have hupper : ∀ P, IsPartition start n P → partitionValue employees P ≤
      (List.range' start (n - start)).foldl
        (fun m e => max m (teamProductivity employees start e + val e)) LLONG_MIN := by
    intro P hP
    cases P with
    | nil => have : start = n := hP; omega
    | cons p rest =>
      obtain ⟨l, r⟩ := p
      obtain ⟨e1, e2, e3, e4⟩ := hP
      subst e1
      have hmem : r ∈ List.range' l (n - l) := by
        rw [List.mem_range'_1]; omega
      have hr := h2 r hmem
      have hrest := (hval r e2 e3).2 rest e4
      rw [partitionValue_cons]
      simp only at hr ⊢
      linarith
  refine ⟨?_, hupper⟩
  rcases h3 with h3 | ⟨e, he, h3⟩
  · have hP : IsPartition start n [(start, n - 1)] := by
      have := isPartition_single start (n - 1) (by omega)
      rwa [Nat.sub_add_cancel (by omega)] at this
    refine ⟨[(start, n - 1)], hP, ?_⟩
    have hl := hlow _ hP
    have hu := hupper _ hP
    rw [h3] at hu ⊢
    omega
  · rw [List.mem_range'_1] at he
    obtain ⟨⟨Q, hQ, hQv⟩, _⟩ := hval e he.1 (by omega)
    refine ⟨(start, e) :: Q, ⟨rfl, he.1, by omega, hQ⟩, ?_⟩
    rw [partitionValue_cons, h3, hQv]

/-! ## Brute force -/

theorem bruteForceSolve_spec (employees : List Employee) (n : Nat)
    (hlow : ∀ a P, IsPartition a n P → LLONG_MIN ≤ partitionValue employees P) :
    ∀ fuel start : Nat, start ≤ n → n - start < fuel →
      ∃ v, bruteForceSolve employees fuel start n = some v ∧
        IsMaxPartitionValue employees start n v := by
  intro fuel
  induction fuel with
  | zero => intro start _ h; omega
  | succ fuel ih =>
    intro start hle hfuel
    by_cases hge : start ≥ n
    · have : start = n := by omega
      subst this
      refine ⟨0, ?_, isMaxPartitionValue_empty employees start⟩
      simp [bruteForceSolve]
    · have hlt : start < n := by omega
      have hrec : ∀ e, start ≤ e → e < n →
          ∃ v, bruteForceSolve employees fuel (e + 1) n = some v ∧
            IsMaxPartitionValue employees (e + 1) n v :=
        fun e h1 h2 => ih (e + 1) (by omega) (by omega)
      have hval : ∀ e, start ≤ e → e < n →
          bruteForceSolve employees fuel (e + 1) n
              = some ((bruteForceSolve employees fuel (e + 1) n).getD 0) ∧
            IsMaxPartitionValue employees (e + 1) n
              ((bruteForceSolve employees fuel (e + 1) n).getD 0) := by
        intro e h1 h2
        obtain ⟨v, hv1, hv2⟩ := hrec e h1 h2
        rw [hv1]
        exact ⟨rfl, hv2⟩
      refine ⟨_, ?_, isMaxPartitionValue_first employees start n hlt (hlow start)
        (fun e => (bruteForceSolve employees fuel (e + 1) n).getD 0)
        (fun e h1 h2 => (hval e h1 h2).2)⟩
      rw [bruteForceSolve, if_neg hge]
      apply foldl_some
      intro m e he
      rw [List.mem_range'_1] at he
      rw [(hval e he.1 (by omega)).1]

/-! ## Dynamic programming -/

/-- One row of the table: the inner loop only rewrites entry `i`. -/
theorem dp_row (dp : List Int) (i : Nat) (hi : i < dp.length) (g : Nat → Int) (L : List Nat)
    (hL : ∀ j ∈ L, j ≠ i) (init : Int) :
    L.foldl (fun d j => d.set i (max (d.getD i 0) (d.getD j 0 + g j))) (dp.set i init)
      = dp.set i (L.foldl (fun m j => max m (dp.getD j 0 + g j)) init) := by
  induction L generalizing init with
  | nil => rfl
  | cons j rest ih =>
    have hj : j ≠ i := hL j (List.mem_cons_self _ _)
    have hj' : i ≠ j := fun h => hj h.symm
    rw [List.foldl_cons, List.foldl_cons]
    have h1 : (dp.set i init).getD i 0 = init := by
      simp [List.getD_eq_getElem?_getD, hi]
    have h2 : (dp.set i init).getD j 0 = dp.getD j 0 := by
      simp [List.getD_eq_getElem?_getD, List.getElem?_set_ne hj']
    rw [h1, h2, List.set_set]
    exact ih (fun k hk => hL k (List.mem_cons_of_mem _ hk)) _

/-- The maximum over the partitions of `[0, i)` from the maxima over the partitions
of the shorter prefixes, by the last range. -/
theorem isMaxPartitionValue_last (employees : List Employee) (i : Nat) (hi : 0 < i)
    (hlow : ∀ P, IsPartition 0 i P → LLONG_MIN ≤ partitionValue employees P)
    (val : Nat → Int)
    (hval : ∀ j, j < i → IsMaxPartitionValue employees 0 j (val j)) :
    IsMaxPartitionValue employees 0 i
      ((List.range' 0 i).foldl
        (fun m j => max m (val j + teamProductivity employees j (i - 1))) LLONG_MIN) := by
  obtain ⟨h1, h2, h3⟩ := foldl_max_spec (List.range' 0 i)
    (fun j => val j + teamProductivity employees j (i - 1)) LLONG_MIN
  have hupper : ∀ P, IsPartition 0 i P → partitionValue employees P ≤
      (List.range' 0 i).foldl
        (fun m j => max m (val j + teamProductivity employees j (i - 1))) LLONG_MIN := by
    intro P hP
    obtain ⟨Q, j, hPQ, hQ, hj⟩ := isPartition_snoc_inv P 0 i hi hP
    have hmem : j ∈ List.range' 0 i := by
      rw [List.mem_range'_1]; omega
    have hr := h2 j hmem
    have hQle := (hval j hj).2 Q hQ
    rw [hPQ, partitionValue_append, partitionValue_cons]
    simp only [partitionValue, List.map_nil, List.sum_nil, add_zero] at hr hQle ⊢
    linarith
  refine ⟨?_, hupper⟩
  rcases h3 with h3 | ⟨j, hj, h3⟩
  · have hP : IsPartition 0 i [(0, i - 1)] := by
      have := isPartition_single 0 (i - 1) (by omega)
      rwa [Nat.sub_add_cancel (by omega)] at this
    refine ⟨[(0, i - 1)], hP, ?_⟩
    have hl := hlow _ hP
    have hu := hupper _ hP
    rw [h3] at hu ⊢
    omega
  · rw [List.mem_range'_1] at hj
    have hji : j < i := by omega
    obtain ⟨⟨Q, hQ, hQv⟩, _⟩ := hval j hji
    have hlast : IsPartition j i [(j, i - 1)] := by
      have := isPartition_single j (i - 1) (by omega)
      rwa [Nat.sub_add_cancel (by omega)] at this
    refine ⟨Q ++ [(j, i - 1)], isPartition_append Q _ 0 j i hQ hlast, ?_⟩
    rw [partitionValue_append, partitionValue_cons, h3, hQv]
    simp [partitionValue]

theorem dpRows_succ (employees : List Employee) (m : Nat) :
    dpRows employees (m + 1)
      = (List.range' 0 (m + 1)).foldl
          (fun dp j => dp.set (m + 1)
            (max (dp.getD (m + 1) 0)
              (dp.getD j 0 + teamProductivity employees j (m + 1 - 1))))
          ((dpRows employees m).set (m + 1) LLONG_MIN) := by
  unfold dpRows
  rw [List.range'_1_concat, List.foldl_append]
  simp only [List.foldl_cons, List.foldl_nil, Nat.add_comm 1 m]

theorem dpRows_spec (employees : List Employee)
    (hlow : ∀ b P, b ≤ employees.length → IsPartition 0 b P →
      LLONG_MIN ≤ partitionValue employees P) :
    ∀ m, m ≤ employees.length →
      (dpRows employees m).length = employees.length + 1 ∧
      ∀ k, k ≤ m → IsMaxPartitionValue employees 0 k ((dpRows employees m).getD k 0) := by
  intro m
  induction m with
  | zero =>
    intro _
    refine ⟨by simp [dpRows], ?_⟩
    intro k hk
    have hk0 : k = 0 := by omega
    subst hk0
    have : (dpRows employees 0).getD 0 0 = 0 := by simp [dpRows]
    rw [this]
    exact isMaxPartitionValue_empty employees 0
  | succ m ih =>
    intro hm
    obtain ⟨hlen, hmax⟩ := ih (by omega)
    have hrow := dp_row (dpRows employees m) (m + 1) (by omega)
      (fun j => teamProductivity employees j (m + 1 - 1)) (List.range' 0 (m + 1))
      (by intro j hj; rw [List.mem_range'_1] at hj; omega) LLONG_MIN
    rw [dpRows_succ, hrow]
    refine ⟨by rw [List.length_set, hlen], ?_⟩
    intro k hk
    by_cases hkm : k = m + 1
    · subst hkm
      have hget : ∀ v : Int, ((dpRows employees m).set (m + 1) v).getD (m + 1) 0 = v := by
        intro v
        have hlt : m + 1 < (dpRows employees m).length := by omega
        simp [List.getD_eq_getElem?_getD, hlt]
      rw [hget]
      exact isMaxPartitionValue_last employees (m + 1) (Nat.succ_pos m)
        (fun P hP => hlow (m + 1) P hm hP)
        (fun j => (dpRows employees m).getD j 0) (fun j hj => hmax j (by omega))
    · have hne : m + 1 ≠ k := fun h => hkm h.symm
      have hget : ∀ v : Int, ((dpRows employees m).set (m + 1) v).getD k 0
          = (dpRows employees m).getD k 0 := by
        intro v
        simp [List.getD_eq_getElem?_getD, List.getElem?_set_ne hne]
      rw [hget]
      exact hmax k (by omega)

theorem dpTable_eq_dpRows (employees : List Employee) :
    dpTable employees = dpRows employees employees.length := rfl

theorem solveDynamicProgramming_spec (employees : List Employee)
    (hlow : ∀ b P, b ≤ employees.length → IsPartition 0 b P →
      LLONG_MIN ≤ partitionValue employees P) :
    IsMaxPartitionValue employees 0 employees.length (solveDynamicProgramming employees) := by
  unfold solveDynamicProgramming
  rw [dpTable_eq_dpRows]
  exact (dpRows_spec employees hlow employees.length (le_refl _)).2 employees.length (le_refl _)

/-! ## The greedy solvers -/

theorem greedy1Scan_fold_inv (employees : List Employee) (currentPos n : Nat) (L : List Nat)
    (hL : ∀ e ∈ L, currentPos ≤ e ∧ e < n) (st : Int × Nat)
    (hst : currentPos ≤ st.2 ∧ st.2 < n ∧ st.1 = teamProductivity employees currentPos st.2) :
    currentPos ≤ (L.foldl (fun st end_ =>
        if teamProductivity employees currentPos end_ > st.1
        then (teamProductivity employees currentPos end_, end_) else st) st).2 ∧
    (L.foldl (fun st end_ =>
        if teamProductivity employees currentPos end_ > st.1
        then (teamProductivity employees currentPos end_, end_) else st) st).2 < n ∧
    (L.foldl (fun st end_ =>
        if teamProductivity employees currentPos end_ > st.1
        then (teamProductivity employees currentPos end_, end_) else st) st).1
      = teamProductivity employees currentPos
          (L.foldl (fun st end_ =>
            if teamProductivity employees currentPos end_ > st.1
            then (teamProductivity employees currentPos end_, end_) else st) st).2 := by
  induction L generalizing st with
  | nil => exact hst
  | cons e rest ih =>
    rw [List.foldl_cons]
    apply ih (fun x hx => hL x (List.mem_cons_of_mem _ hx))
    have he := hL e (List.mem_cons_self _ _)
    split
    · exact ⟨he.1, he.2, rfl⟩
    · exact hst

theorem greedy1Scan_spec (employees : List Employee) (currentPos n : Nat) (hlt : currentPos < n)
    (hlow : LLONG_MIN ≤ teamProductivity employees currentPos currentPos) :
    currentPos ≤ (greedy1Scan employees currentPos n).2 ∧
    (greedy1Scan employees currentPos n).2 < n ∧
    (greedy1Scan employees currentPos n).1
      = teamProductivity employees currentPos (greedy1Scan employees currentPos n).2 := by
  unfold greedy1Scan
  have hrange : List.range' currentPos (n - currentPos)
      = currentPos :: List.range' (currentPos + 1) (n - currentPos - 1) := by
    have : n - currentPos = (n - currentPos - 1) + 1 := by omega
    rw [this, List.range'_succ]
    simp
  rw [hrange, List.foldl_cons]
  apply greedy1Scan_fold_inv
  · intro e he
    rw [List.mem_range'_1] at he
    omega
  · simp only
    split
    · exact ⟨le_refl _, hlt, rfl⟩
    · rename_i hgt
      refine ⟨le_refl _, hlt, ?_⟩
      simp only [gt_iff_lt, not_lt] at hgt
      exact le_antisymm hlow hgt

theorem greedy1Loop_spec (employees : List Employee) (n : Nat)
    (hlow : ∀ a, a < n → LLONG_MIN ≤ teamProductivity employees a a) :
    ∀ fuel currentPos : Nat, ∀ totalProductivity : Int, currentPos ≤ n → n - currentPos < fuel →
      ∃ P, IsPartition currentPos n P ∧
        greedy1Loop employees n fuel (totalProductivity, currentPos)
          = some (totalProductivity + partitionValue employees P, n) := by
  intro fuel
  induction fuel with
  | zero => intro currentPos _ _ h; omega
  | succ fuel ih =>
    intro currentPos totalProductivity hle hfuel
    by_cases hlt : currentPos < n
    · obtain ⟨h1, h2, h3⟩ := greedy1Scan_spec employees currentPos n hlt (hlow currentPos hlt)
      obtain ⟨P, hP, hres⟩ := ih ((greedy1Scan employees currentPos n).2 + 1)
        (totalProductivity + (greedy1Scan employees currentPos n).1) (by omega) (by omega)
      refine ⟨(currentPos, (greedy1Scan employees currentPos n).2) :: P, ⟨rfl, h1, h2, hP⟩, ?_⟩
      rw [greedy1Loop, if_pos hlt]
      simp only
      rw [hres, partitionValue_cons, h3]
      simp only [add_assoc]
    · have : currentPos = n := by omega
      subst this
      refine ⟨[], rfl, ?_⟩
      rw [greedy1Loop, if_neg hlt]
      simp [partitionValue]

theorem greedy2Expand_range (employees : List Employee) (currentPos : Nat) :
    ∀ count next teamEnd : Nat,
      greedy2Expand employees currentPos count next teamEnd = teamEnd ∨
      (next ≤ greedy2Expand employees currentPos count next teamEnd ∧
        greedy2Expand employees currentPos count next teamEnd < next + count) := by
  intro count
  induction count with
  | zero => intro next teamEnd; left; rfl
  | succ count ih =>
    intro next teamEnd
    rw [greedy2Expand]
    split
    · rcases ih (next + 1) next with h | h
      · right; rw [h]; omega
      · right; omega
    · left; rfl

theorem greedy2Loop_spec (employees : List Employee) (n : Nat) :
    ∀ fuel currentPos : Nat, ∀ totalProductivity : Int, currentPos ≤ n → n - currentPos < fuel →
      ∃ P, IsPartition currentPos n P ∧
        greedy2Loop employees n fuel (totalProductivity, currentPos)
          = some (totalProductivity + partitionValue employees P, n) := by
  intro fuel
  induction fuel with
  | zero => intro currentPos _ _ h; omega
  | succ fuel ih =>
    intro currentPos totalProductivity hle hfuel
    by_cases hlt : currentPos < n
    · have hrange := greedy2Expand_range employees currentPos (n - (currentPos + 1))
        (currentPos + 1) currentPos
      generalize hte : greedy2Expand employees currentPos (n - (currentPos + 1))
        (currentPos + 1) currentPos = teamEnd at hrange
      have h1 : currentPos ≤ teamEnd := by omega
      have h2 : teamEnd < n := by omega
      obtain ⟨P, hP, hres⟩ := ih (teamEnd + 1)
        (totalProductivity + teamProductivity employees currentPos teamEnd) (by omega) (by omega)
      refine ⟨(currentPos, teamEnd) :: P, ⟨rfl, h1, h2, hP⟩, ?_⟩
      rw [greedy2Loop, if_pos hlt]
      simp only
      rw [hte, hres, partitionValue_cons]
      simp only [add_assoc]
    · have : currentPos = n := by omega
      subst this
      refine ⟨[], rfl, ?_⟩
      rw [greedy2Loop, if_neg hlt]
      simp [partitionValue]

/-! ## The solvers on a bounded input -/

theorem solveBruteForce_isMax (employees : List Employee) (hb : Bounded employees) :
    ∃ v, solveBruteForce employees = some v ∧
      IsMaxPartitionValue employees 0 employees.length v :=
  bruteForceSolve_spec employees employees.length
    (fun a P hP => partitionValue_ge_min employees hb a employees.length (le_refl _) P hP)
    (employees.length + 1) 0 (Nat.zero_le _) (by omega)

theorem solveDynamicProgramming_isMax (employees : List Employee) (hb : Bounded employees) :
    IsMaxPartitionValue employees 0 employees.length (solveDynamicProgramming employees) :=
  solveDynamicProgramming_spec employees
    (fun b P hle hP => partitionValue_ge_min employees hb 0 b hle P hP)

theorem solveGreedy1_partition (employees : List Employee) (hb : Bounded employees) :
    ∃ P, IsPartition 0 employees.length P ∧
      solveGreedy1 employees = some (partitionValue employees P) := by
  have hlow : ∀ a, a < employees.length → LLONG_MIN ≤ teamProductivity employees a a := by
    intro a ha
    have h := partitionValue_ge_min employees hb a (a + 1) (by omega) [(a, a)]
      (isPartition_single a a (le_refl _))
    simpa [partitionValue] using h
  obtain ⟨P, hP, hres⟩ := greedy1Loop_spec employees employees.length hlow
    (employees.length + 1) 0 0 (Nat.zero_le _) (by omega)
  refine ⟨P, hP, ?_⟩
  unfold solveGreedy1
  rw [hres]
  simp

theorem solveGreedy2_partition (employees : List Employee) :
    ∃ P, IsPartition 0 employees.length P ∧
      solveGreedy2 employees = some (partitionValue employees P) := by
  obtain ⟨P, hP, hres⟩ := greedy2Loop_spec employees employees.length
    (employees.length + 1) 0 0 (Nat.zero_le _) (by omega)
  refine ⟨P, hP, ?_⟩
  unfold solveGreedy2
  rw [hres]
  simp

/-! ## Teams of one employee -/

theorem teamProductivity_single (employees : List Employee) (i : Nat) :
    teamProductivity employees i i = min LLONG_MAX (employees.getD i default).A := by
  have hidx : loopIndices i i = [i] := by
    unfold loopIndices
    have : i + 1 - i = 1 := by omega
    rw [this]
    rfl
  unfold teamProductivity languageFrequency candidateProductivity
  rw [hidx]
  simp [mapIncrement]

/-! ## Same favourite language everywhere -/

theorem isTop_of_uniform (xs : List Employee) (c lang : String) (hne : xs ≠ [])
    (hc : ∀ e ∈ xs, e.C = c) (htop : IsTop xs lang) : lang = c := by
  obtain ⟨e, rest, hx⟩ := List.exists_cons_of_ne_nil hne
  have he : e.C = c := hc e (by rw [hx]; exact List.mem_cons_self _ _)
  have hpos : 0 < occurrences xs c := by
    rw [hx, ← he]
    exact occurrences_head_pos e rest
  have hlang : 0 < occurrences xs lang := lt_of_lt_of_le hpos (htop c)
  unfold occurrences at hlang
  obtain ⟨e', he', hC⟩ := List.mem_map.mp (List.count_pos_iff.mp hlang)
  rw [← hC]
  exact hc e' he'

theorem totalWith_uniform (xs : List Employee) (c : String) (hc : ∀ e ∈ xs, e.C = c) :
    totalWith xs c = (xs.map Employee.A).sum := by
  unfold totalWith
  congr 1
  apply List.map_congr_left
  intro e he
  rw [if_pos (hc e he)]

theorem team_primary (employees : List Employee) (l r : Nat) (hlr : l ≤ r)
    (hr : r < employees.length) :
    ((team employees l r).map Employee.A).sum
      = primaryBefore employees (r + 1) - primaryBefore employees l := by
  rw [team_eq_slice employees l r hr]
  unfold primaryBefore
  have h : r + 1 = l + (r + 1 - l) := by omega
  conv_rhs => rw [h, List.take_add, List.map_append, List.sum_append]
  ring

theorem mem_team (employees : List Employee) (l r : Nat) (hr : r < employees.length) :
    ∀ e ∈ team employees l r, e ∈ employees := by
  intro e he
  rw [team_eq_slice employees l r hr] at he
  exact List.mem_of_mem_drop (List.mem_of_mem_take he)

theorem teamProductivity_uniform (employees : List Employee) (c : String)
    (hc : ∀ e ∈ employees, e.C = c) (hb : Bounded employees) (l r : Nat) (hlr : l ≤ r)
    (hr : r < employees.length) :
    teamProductivity employees l r = ((team employees l r).map Employee.A).sum := by
  have hne := team_ne_nil employees l r hlr
  have hc' : ∀ e ∈ team employees l r, e.C = c :=
    fun e he => hc e (mem_team employees l r hr e he)
  obtain ⟨_, h2, h3⟩ := teamProductivity_spec employees l r hne
  obtain ⟨lang0, hlang0⟩ := exists_isTop employees l r hne
  have h0 : lang0 = c := isTop_of_uniform _ c lang0 hne hc' hlang0
  subst h0
  have hle := h2 lang0 hlang0
  rw [← totalWith_uniform _ lang0 hc']
  rcases h3 with h3 | ⟨lang, hl, h3⟩
  · have := totalWith_team_le employees l r hlr hr hb lang0
    rw [h3] at hle ⊢
    omega
  · have : lang = lang0 := isTop_of_uniform _ lang0 lang hne hc' hl
    rw [h3, this]

theorem partitionValue_uniform (employees : List Employee) (c : String)
    (hc : ∀ e ∈ employees, e.C = c) (hb : Bounded employees) (ranges : List (Nat × Nat)) :
    ∀ a b : Nat, b ≤ employees.length → IsPartition a b ranges →
      partitionValue employees ranges = primaryBefore employees b - primaryBefore employees a := by
  induction ranges with
  | nil =>
    intro a b _ h
    have hab : a = b := h
    subst hab
    simp [partitionValue]
  | cons p rest ih =>
    obtain ⟨l, r⟩ := p
    intro a b hle h
    obtain ⟨h1, h2, h3, h4⟩ := h
    subst h1
    rw [partitionValue_cons, ih (r + 1) b hle h4]
    simp only
    rw [teamProductivity_uniform employees c hc hb l r h2 (by omega),
      team_primary employees l r h2 (by omega)]
    ring

theorem primaryBefore_zero (employees : List Employee) : primaryBefore employees 0 = 0 := by
  simp [primaryBefore]

theorem primaryBefore_length (employees : List Employee) :
    primaryBefore employees employees.length = (employees.map Employee.A).sum := by
  simp [primaryBefore]

theorem partitionValue_uniform_total (employees : List Employee) (c : String)
    (hc : ∀ e ∈ employees, e.C = c) (hb : Bounded employees) (ranges : List (Nat × Nat))
    (h : IsPartition 0 employees.length ranges) :
    partitionValue employees ranges = (employees.map Employee.A).sum := by
  rw [partitionValue_uniform employees c hc hb ranges 0 employees.length (le_refl _) h,
    primaryBefore_zero, primaryBefore_length, sub_zero]

/-! ## The scorer against the specification of a range -/

theorem isTop_team_iff (employees : List Employee) (l r : Nat) (lang : String) :
    IsTop (team employees l r) lang ↔ IsMaxFreqLanguage employees l r lang := by
  unfold IsTop IsMaxFreqLanguage
  simp only [occurrences_team]

theorem totalWith_team (employees : List Employee) (l r : Nat) (lang : String) :
    totalWith (team employees l r) lang = candidateTotal employees l r lang := by
  rw [← candidateProductivity_eq_totalWith, candidateProductivity_eq_candidateTotal]

theorem isTop_perm (xs ys : List Employee) (h : xs.Perm ys) (lang : String)
    (htop : IsTop xs lang) : IsTop ys lang := by
  intro other
  have hcount : ∀ k, occurrences xs k = occurrences ys k :=
    fun k => (h.map Employee.C).count_eq k
  rw [← hcount other, ← hcount lang]
  exact htop other

theorem totalWith_perm (xs ys : List Employee) (h : xs.Perm ys) (lang : String) :
    totalWith xs lang = totalWith ys lang :=
  (h.map _).sum_eq

theorem teamProductivity_le_of_perm (employees other : List Employee) (l r l2 r2 : Nat)
    (hlr : l ≤ r) (hlr2 : l2 ≤ r2) (h : (team employees l r).Perm (team other l2 r2)) :
    teamProductivity employees l r ≤ teamProductivity other l2 r2 := by
  obtain ⟨a1, a2, _⟩ := teamProductivity_spec employees l r (team_ne_nil employees l r hlr)
  obtain ⟨_, _, b3⟩ := teamProductivity_spec other l2 r2 (team_ne_nil other l2 r2 hlr2)
  rcases b3 with b3 | ⟨lang, hl, b3⟩
  · rw [b3]; exact a1
  · rw [b3, ← totalWith_perm _ _ h lang]
    exact a2 lang (isTop_perm _ _ h.symm lang hl)

/-! ## The claims -/

/-- C1: on every bounded employee sequence, of any length, the dynamic programming
solver returns exactly what the brute force returns (sums are exact integers). -/
theorem solveDynamicProgramming_eq_solveBruteForce (employees : List Employee)
    (hb : Bounded employees) :
    solveBruteForce employees = some (solveDynamicProgramming employees) := by
  obtain ⟨v, hv, hmax⟩ := solveBruteForce_isMax employees hb
  rw [hv, isMaxPartitionValue_unique employees 0 employees.length v _ hmax
    (solveDynamicProgramming_isMax employees hb)]

theorem solveDynamicProgramming_eq_solveBruteForce_witness :
    Bounded [⟨10, 1, "go"⟩, ⟨1, 10, "rust"⟩, ⟨4, 2, "go"⟩] ∧
    solveBruteForce [⟨10, 1, "go"⟩, ⟨1, 10, "rust"⟩, ⟨4, 2, "go"⟩]
      = some (solveDynamicProgramming [⟨10, 1, "go"⟩, ⟨1, 10, "rust"⟩, ⟨4, 2, "go"⟩]) :=
  ⟨by decide, solveDynamicProgramming_eq_solveBruteForce _ (by decide)⟩

/-- C2: on every bounded employee sequence of length `n` the brute force returns the
maximum, over the partitions of `[0, n)` into contiguous non-empty ranges, of the sum
of the team productivities: a partition attains it and none exceeds it. -/
theorem solveBruteForce_maximum (employees : List Employee) (hb : Bounded employees) :
    ∃ v, solveBruteForce employees = some v ∧
      (∃ ranges, IsPartition 0 employees.length ranges ∧
        partitionValue employees ranges = v) ∧
      ∀ ranges, IsPartition 0 employees.length ranges →
        partitionValue employees ranges ≤ v :=
  solveBruteForce_isMax employees hb

theorem solveBruteForce_maximum_witness :
    Bounded [⟨3, 8, "c"⟩, ⟨-2, 5, "go"⟩, ⟨6, 0, "c"⟩] ∧
    ∃ v, solveBruteForce [⟨3, 8, "c"⟩, ⟨-2, 5, "go"⟩, ⟨6, 0, "c"⟩] = some v ∧
      (∃ ranges, IsPartition 0 3 ranges ∧
        partitionValue [⟨3, 8, "c"⟩, ⟨-2, 5, "go"⟩, ⟨6, 0, "c"⟩] ranges = v) ∧
      ∀ ranges, IsPartition 0 3 ranges →
        partitionValue [⟨3, 8, "c"⟩, ⟨-2, 5, "go"⟩, ⟨6, 0, "c"⟩] ranges ≤ v :=
  ⟨by decide, solveBruteForce_maximum _ (by decide)⟩

/-- C3: on a bounded employee sequence and a range `0 <= l <= r < n` the scorer
returns the minimum of the candidate totals over the languages whose number of
occurrences in `[l, r]` is the largest: one of them attains it, none is below it. -/
theorem teamProductivity_eq_min_candidateTotal (employees : List Employee) (l r : Nat)
    (hlr : l ≤ r) (hr : r < employees.length) (hb : Bounded employees) :
    (∃ lang, IsMaxFreqLanguage employees l r lang ∧
      teamProductivity employees l r = candidateTotal employees l r lang) ∧
    ∀ lang, IsMaxFreqLanguage employees l r lang →
      teamProductivity employees l r ≤ candidateTotal employees l r lang := by
  have hne := team_ne_nil employees l r hlr
  obtain ⟨_, h2, h3⟩ := teamProductivity_spec employees l r hne
  constructor
  · rcases h3 with h3 | ⟨lang, hl, h3⟩
    · obtain ⟨lang, hl⟩ := exists_isTop employees l r hne
      refine ⟨lang, (isTop_team_iff employees l r lang).mp hl, ?_⟩
      have hle := h2 lang hl
      have hup := totalWith_team_le employees l r hlr hr hb lang
      rw [← totalWith_team]
      rw [h3] at hle ⊢
      omega
    · exact ⟨lang, (isTop_team_iff employees l r lang).mp hl, by rw [h3, totalWith_team]⟩
  · intro lang hl
    rw [← totalWith_team]
    exact h2 lang ((isTop_team_iff employees l r lang).mpr hl)

theorem teamProductivity_eq_min_candidateTotal_witness :
    (1 ≤ 2 ∧ 2 < [(⟨4, 1, "go"⟩ : Employee), ⟨10, 1, "go"⟩, ⟨1, 10, "rust"⟩].length ∧
      Bounded [⟨4, 1, "go"⟩, ⟨10, 1, "go"⟩, ⟨1, 10, "rust"⟩]) ∧
    ((∃ lang, IsMaxFreqLanguage [⟨4, 1, "go"⟩, ⟨10, 1, "go"⟩, ⟨1, 10, "rust"⟩] 1 2 lang ∧
      teamProductivity [⟨4, 1, "go"⟩, ⟨10, 1, "go"⟩, ⟨1, 10, "rust"⟩] 1 2
        = candidateTotal [⟨4, 1, "go"⟩, ⟨10, 1, "go"⟩, ⟨1, 10, "rust"⟩] 1 2 lang) ∧
    ∀ lang, IsMaxFreqLanguage [⟨4, 1, "go"⟩, ⟨10, 1, "go"⟩, ⟨1, 10, "rust"⟩] 1 2 lang →
      teamProductivity [⟨4, 1, "go"⟩, ⟨10, 1, "go"⟩, ⟨1, 10, "rust"⟩] 1 2
        ≤ candidateTotal [⟨4, 1, "go"⟩, ⟨10, 1, "go"⟩, ⟨1, 10, "rust"⟩] 1 2 lang) :=
  ⟨⟨by decide, by decide, by decide⟩,
    teamProductivity_eq_min_candidateTotal _ 1 2 (by decide) (by decide) (by decide)⟩

/-- C4: on every bounded employee sequence greedy 1 returns a value that is at most
the value dynamic programming returns. -/
theorem solveGreedy1_le_solveDynamicProgramming (employees : List Employee)
    (hb : Bounded employees) :
    ∃ g, solveGreedy1 employees = some g ∧ g ≤ solveDynamicProgramming employees := by
  obtain ⟨P, hP, hres⟩ := solveGreedy1_partition employees hb
  exact ⟨_, hres, (solveDynamicProgramming_isMax employees hb).2 P hP⟩

theorem solveGreedy1_le_solveDynamicProgramming_witness :
    Bounded [⟨9, 0, "a"⟩, ⟨1, 7, "b"⟩, ⟨1, 7, "b"⟩, ⟨2, 2, "a"⟩] ∧
    ∃ g, solveGreedy1 [⟨9, 0, "a"⟩, ⟨1, 7, "b"⟩, ⟨1, 7, "b"⟩, ⟨2, 2, "a"⟩] = some g ∧
      g ≤ solveDynamicProgramming [⟨9, 0, "a"⟩, ⟨1, 7, "b"⟩, ⟨1, 7, "b"⟩, ⟨2, 2, "a"⟩] :=
  ⟨by decide, solveGreedy1_le_solveDynamicProgramming _ (by decide)⟩

/-- C5: on every bounded employee sequence greedy 2 returns a value that is at most
the value dynamic programming returns. -/
theorem solveGreedy2_le_solveDynamicProgramming (employees : List Employee)
    (hb : Bounded employees) :
    ∃ g, solveGreedy2 employees = some g ∧ g ≤ solveDynamicProgramming employees := by
  obtain ⟨P, hP, hres⟩ := solveGreedy2_partition employees
  exact ⟨_, hres, (solveDynamicProgramming_isMax employees hb).2 P hP⟩

theorem solveGreedy2_le_solveDynamicProgramming_witness :
    Bounded [⟨2, 1, "x"⟩, ⟨3, 9, "y"⟩, ⟨5, 5, "x"⟩, ⟨0, 8, "z"⟩] ∧
    ∃ g, solveGreedy2 [⟨2, 1, "x"⟩, ⟨3, 9, "y"⟩, ⟨5, 5, "x"⟩, ⟨0, 8, "z"⟩] = some g ∧
      g ≤ solveDynamicProgramming [⟨2, 1, "x"⟩, ⟨3, 9, "y"⟩, ⟨5, 5, "x"⟩, ⟨0, 8, "z"⟩] :=
  ⟨by decide, solveGreedy2_le_solveDynamicProgramming _ (by decide)⟩

/-- C6: for every valid index `i` the team `[i, i]` scores the primary productivity
of employee `i` (a `long long`, hence at most `LLONG_MAX`), whatever the secondary
productivity and the language of that employee are. -/
theorem teamProductivity_singleton (employees : List Employee) (i : Nat)
    (hi : i < employees.length) (hA : employees[i].A ≤ LLONG_MAX) :
    teamProductivity employees i i = employees[i].A := by
  rw [teamProductivity_single, List.getD_eq_getElem employees default hi]
  exact min_eq_right hA

theorem teamProductivity_singleton_witness :
    (1 < [(⟨5, 1, "go"⟩ : Employee), ⟨-7, 200, "rust"⟩].length ∧ (-7 : Int) ≤ LLONG_MAX) ∧
    teamProductivity [⟨5, 1, "go"⟩, ⟨-7, 200, "rust"⟩] 1 1 = -7 :=
  ⟨⟨by decide, by decide⟩,
    teamProductivity_singleton [⟨5, 1, "go"⟩, ⟨-7, 200, "rust"⟩] 1 (by decide) (by decide)⟩

/-- C7: on the empty employee sequence the four solvers return 0. -/
theorem solvers_empty :
    solveBruteForce [] = some 0 ∧ solveDynamicProgramming [] = 0 ∧
    solveGreedy1 [] = some 0 ∧ solveGreedy2 [] = some 0 := by
  decide

/-- C8: on a sequence of one employee `(A, B, C)`, with `A` a `long long`, the four
solvers return `A`. -/
theorem solvers_single (A B : Int) (C : String) (h1 : LLONG_MIN ≤ A) (h2 : A ≤ LLONG_MAX) :
    solveBruteForce [⟨A, B, C⟩] = some A ∧ solveDynamicProgramming [⟨A, B, C⟩] = A ∧
    solveGreedy1 [⟨A, B, C⟩] = some A ∧ solveGreedy2 [⟨A, B, C⟩] = some A := by
  have htp : teamProductivity [⟨A, B, C⟩] 0 0 = A := by
    rw [teamProductivity_single]
    exact min_eq_right h2
  refine ⟨?_, ?_, ?_, ?_⟩
  · simp [solveBruteForce, bruteForceSolve, List.range', htp, max_eq_right h1]
  · simp [solveDynamicProgramming, dpTable, List.range', htp, max_eq_right h1]
  · simp only [solveGreedy1, greedy1Loop, greedy1Scan, List.length_singleton, List.range',
      List.foldl_cons, List.foldl_nil, htp]
    by_cases hlt : A > LLONG_MIN
    · simp [hlt]
    · have : A = LLONG_MIN := by
        simp only [gt_iff_lt, not_lt] at hlt
        exact le_antisymm hlt h1
      simp [this]
  · simp [solveGreedy2, greedy2Loop, greedy2Expand, htp]

theorem solvers_single_witness :
    (LLONG_MIN ≤ 10 ∧ (10 : Int) ≤ LLONG_MAX) ∧
    solveBruteForce [⟨10, 3, "rust"⟩] = some 10 ∧
    solveDynamicProgramming [⟨10, 3, "rust"⟩] = 10 ∧
    solveGreedy1 [⟨10, 3, "rust"⟩] = some 10 ∧ solveGreedy2 [⟨10, 3, "rust"⟩] = some 10 :=
  ⟨⟨by decide, by decide⟩, solvers_single 10 3 "rust" (by decide) (by decide)⟩

/-- C9: the score of a team depends only on the multiset of its members: two valid
ranges, of one or of two employee sequences, that hold the same employees up to a
permutation have the same team productivity. -/
theorem teamProductivity_perm (employees other : List Employee) (l r l2 r2 : Nat)
    (hlr : l ≤ r) (hr : r < employees.length) (hlr2 : l2 ≤ r2) (hr2 : r2 < other.length)
    (hperm : ((employees.drop l).take (r + 1 - l)).Perm ((other.drop l2).take (r2 + 1 - l2))) :
    teamProductivity employees l r = teamProductivity other l2 r2 := by
  rw [← team_eq_slice employees l r hr, ← team_eq_slice other l2 r2 hr2] at hperm
  exact le_antisymm (teamProductivity_le_of_perm employees other l r l2 r2 hlr hlr2 hperm)
    (teamProductivity_le_of_perm other employees l2 r2 l r hlr2 hlr hperm.symm)

theorem teamProductivity_perm_witness :
    (([(⟨10, 1, "go"⟩ : Employee), ⟨1, 10, "rust"⟩, ⟨3, 4, "c"⟩].drop 0).take (1 + 1 - 0)).Perm
      (([(⟨8, 8, "c"⟩ : Employee), ⟨1, 10, "rust"⟩, ⟨10, 1, "go"⟩].drop 1).take (2 + 1 - 1)) ∧
    teamProductivity [⟨10, 1, "go"⟩, ⟨1, 10, "rust"⟩, ⟨3, 4, "c"⟩] 0 1
      = teamProductivity [⟨8, 8, "c"⟩, ⟨1, 10, "rust"⟩, ⟨10, 1, "go"⟩] 1 2 :=
  ⟨List.Perm.swap _ _ _,
    teamProductivity_perm [⟨10, 1, "go"⟩, ⟨1, 10, "rust"⟩, ⟨3, 4, "c"⟩]
      [⟨8, 8, "c"⟩, ⟨1, 10, "rust"⟩, ⟨10, 1, "go"⟩] 0 1 1 2 (by decide) (by decide) (by decide)
      (by decide) (List.Perm.swap _ _ _)⟩

/-- C10: when all employees of a bounded sequence have the same favourite language,
every contiguous team scores the sum of the primary productivities of its members
and the four solvers return the sum of all primary productivities. -/
theorem solvers_uniform (employees : List Employee) (c : String)
    (hc : ∀ e ∈ employees, e.C = c) (hb : Bounded employees) :
    (∀ l r, l ≤ r → r < employees.length →
      teamProductivity employees l r = ∑ i ∈ Finset.Icc l r, (employees.getD i default).A) ∧
    solveDynamicProgramming employees = (employees.map Employee.A).sum ∧
    solveBruteForce employees = some (employees.map Employee.A).sum ∧
    solveGreedy1 employees = some (employees.map Employee.A).sum ∧
    solveGreedy2 employees = some (employees.map Employee.A).sum := by
  refine ⟨?_, ?_, ?_, ?_, ?_⟩
  · intro l r hlr hr
    rw [teamProductivity_uniform employees c hc hb l r hlr hr]
    unfold team
    rw [List.map_map]
    rfl
  · obtain ⟨⟨P, hP, hv⟩, _⟩ := solveDynamicProgramming_isMax employees hb
    rw [← hv, partitionValue_uniform_total employees c hc hb P hP]
  · obtain ⟨v, hv, ⟨P, hP, hPv⟩, _⟩ := solveBruteForce_isMax employees hb
    rw [hv, ← hPv, partitionValue_uniform_total employees c hc hb P hP]
  · obtain ⟨P, hP, hres⟩ := solveGreedy1_partition employees hb
    rw [hres, partitionValue_uniform_total employees c hc hb P hP]
  · obtain ⟨P, hP, hres⟩ := solveGreedy2_partition employees
    rw [hres, partitionValue_uniform_total employees c hc hb P hP]

theorem solvers_uniform_witness :
    ((∀ e ∈ [(⟨5, 1, "go"⟩ : Employee), ⟨7, 2, "go"⟩], e.C = "go") ∧
      Bounded [⟨5, 1, "go"⟩, ⟨7, 2, "go"⟩]) ∧
    teamProductivity [⟨5, 1, "go"⟩, ⟨7, 2, "go"⟩] 0 1 = 12 ∧
    solveDynamicProgramming [⟨5, 1, "go"⟩, ⟨7, 2, "go"⟩] = 12 ∧
    solveBruteForce [⟨5, 1, "go"⟩, ⟨7, 2, "go"⟩] = some 12 :=
  ⟨⟨by decide, by decide⟩,
    (solvers_uniform [⟨5, 1, "go"⟩, ⟨7, 2, "go"⟩] "go" (by decide) (by decide)).1 0 1
      (by decide) (by decide),
    (solvers_uniform [⟨5, 1, "go"⟩, ⟨7, 2, "go"⟩] "go" (by decide) (by decide)).2.1,
    (solvers_uniform [⟨5, 1, "go"⟩, ⟨7, 2, "go"⟩] "go" (by decide) (by decide)).2.2.1⟩

/-! ## Ranges the solvers never ask for -/

theorem loopIndices_reversed (l r : Nat) (h : r < l) : loopIndices l r = [] := by
  unfold loopIndices
  have : r + 1 - l = 0 := by omega
  rw [this]
  rfl

/-- C12 (as amended): the scorer has no range check; called with `l > r` its loops
do not run and it returns `LLONG_MAX`, the start value of the running minimum. -/
theorem teamProductivity_reversed (employees : List Employee) (l r : Nat) (h : r < l) :
    teamProductivity employees l r = LLONG_MAX := by
  unfold teamProductivity languageFrequency
  rw [loopIndices_reversed l r h]
  rfl

theorem teamProductivity_reversed_witness :
    0 < 1 ∧ teamProductivity [⟨10, 1, "go"⟩, ⟨1, 10, "rust"⟩] 1 0 = LLONG_MAX :=
  ⟨by decide, teamProductivity_reversed [⟨10, 1, "go"⟩, ⟨1, 10, "rust"⟩] 1 0 (by decide)⟩

/-- C12 (as stated) fails: on three employees the call with `l = 2 > r = 0` reads no
element of the vector and returns the number 9223372036854775807 as if it were a score. -/
theorem teamProductivity_reversed_returns :
    teamProductivity [⟨5, 1, "go"⟩, ⟨7, 2, "go"⟩, ⟨4, 4, "rust"⟩] 2 0 = 9223372036854775807 := by
  decide

/-! ## Teams of two employees -/

theorem team_pair (e0 e1 : Employee) : team [e0, e1] 0 1 = [e0, e1] := rfl

theorem isTop_pair (e0 e1 : Employee) (hne : e0.C ≠ e1.C) (lang : String) :
    IsTop [e0, e1] lang ↔ lang = e0.C ∨ lang = e1.C := by
  have hne' : e1.C ≠ e0.C := fun h => hne h.symm
  constructor
  · intro h
    by_contra hc
    push_neg at hc
    have h0 := h e0.C
    simp only [occurrences, List.map_cons, List.map_nil, List.count_cons, List.count_nil,
      beq_iff_eq] at h0
    simp [hne', hc.1.symm, hc.2.symm] at h0
  · intro h other
    simp only [occurrences, List.map_cons, List.map_nil, List.count_cons, List.count_nil,
      beq_iff_eq]
    rcases h with h | h
    · subst h
      by_cases h0 : e0.C = other
      · have h1 : ¬ e1.C = other := fun h => hne (h0.trans h.symm)
        simp [h0, h1, hne']
      · by_cases h1 : e1.C = other <;> simp [h0, h1, hne']
    · subst h
      by_cases h0 : e0.C = other
      · have h1 : ¬ e1.C = other := fun h => hne (h0.trans h.symm)
        simp [h0, h1, hne]
      · by_cases h1 : e1.C = other <;> simp [h0, h1, hne]

theorem teamProductivity_pair (e0 e1 : Employee) (hne : e0.C ≠ e1.C)
    (h : min (e0.A + e1.B) (e0.B + e1.A) ≤ LLONG_MAX) :
    teamProductivity [e0, e1] 0 1 = min (e0.A + e1.B) (e0.B + e1.A) := by
  have hne' : e1.C ≠ e0.C := fun h => hne h.symm
  obtain ⟨_, h2, h3⟩ := teamProductivity_spec [e0, e1] 0 1 (by rw [team_pair]; simp)
  rw [team_pair] at h2 h3
  have t0 : totalWith [e0, e1] e0.C = e0.A + e1.B := by
    simp [totalWith, hne']
  have t1 : totalWith [e0, e1] e1.C = e0.B + e1.A := by
    simp [totalWith, hne]
  have hle0 := h2 e0.C ((isTop_pair e0 e1 hne _).mpr (Or.inl rfl))
  have hle1 := h2 e1.C ((isTop_pair e0 e1 hne _).mpr (Or.inr rfl))
  rw [t0] at hle0
  rw [t1] at hle1
  have hle : teamProductivity [e0, e1] 0 1 ≤ min (e0.A + e1.B) (e0.B + e1.A) :=
    le_min hle0 hle1
  apply le_antisymm hle
  rcases h3 with h3 | ⟨lang, hl, h3⟩
  · rw [h3]; exact h
  · rcases (isTop_pair e0 e1 hne lang).mp hl with hl | hl
    · rw [h3, hl, t0]; exact min_le_left _ _
    · rw [h3, hl, t1]; exact min_le_right _ _

theorem bounded_pair (e0 e1 : Employee) (hb : Bounded [e0, e1]) :
    |e0.A| + |e1.A| ≤ LLONG_MAX ∧ |e0.A| + |e1.B| ≤ LLONG_MAX ∧
    |e0.B| + |e1.A| ≤ LLONG_MAX := by
  unfold Bounded at hb
  simp only [List.map_cons, List.map_nil, List.sum_cons, List.sum_nil, add_zero] at hb
  have a0 : |e0.A| ≤ magnitude e0 := le_max_left _ _
  have b0 : |e0.B| ≤ magnitude e0 := le_max_right _ _
  have a1 : |e1.A| ≤ magnitude e1 := le_max_left _ _
  have b1 : |e1.B| ≤ magnitude e1 := le_max_right _ _
  refine ⟨?_, ?_, ?_⟩ <;> linarith

theorem solvers_pair (e0 e1 : Employee) (t : Int)
    (ht : teamProductivity [e0, e1] 0 1 = t)
    (h0 : LLONG_MIN ≤ e0.A) (h0' : e0.A ≤ LLONG_MAX) (h1 : LLONG_MIN ≤ e1.A)
    (h1' : e1.A ≤ LLONG_MAX) (hs : LLONG_MIN ≤ e0.A + e1.A) :
    solveDynamicProgramming [e0, e1] = max (e0.A + e1.A) t ∧
    solveBruteForce [e0, e1] = some (max (e0.A + e1.A) t) := by
  have tp00 : teamProductivity [e0, e1] 0 0 = e0.A := by
    rw [teamProductivity_single]; exact min_eq_right h0'
  have tp11 : teamProductivity [e0, e1] 1 1 = e1.A := by
    rw [teamProductivity_single]; exact min_eq_right h1'
  constructor
  · simp [solveDynamicProgramming, dpTable, List.range', tp00, tp11, ht]
    omega
  · simp [solveBruteForce, bruteForceSolve, List.range', tp00, tp11, ht]
    omega

/-- C11: in a sequence of two employees with different favourite languages both
languages occur once in the team `[0, 1]`, the candidate totals are `A_0 + B_1` and
`B_0 + A_1`, the team scores the smaller one, and dynamic programming and brute
force return the larger of `A_0 + A_1` (two teams of one) and that score. -/
theorem two_employees_tie (e0 e1 : Employee) (hne : e0.C ≠ e1.C) (hb : Bounded [e0, e1]) :
    languageCount [e0, e1] 0 1 e0.C = 1 ∧ languageCount [e0, e1] 0 1 e1.C = 1 ∧
    candidateTotal [e0, e1] 0 1 e0.C = e0.A + e1.B ∧
    candidateTotal [e0, e1] 0 1 e1.C = e0.B + e1.A ∧
    teamProductivity [e0, e1] 0 1 = min (e0.A + e1.B) (e0.B + e1.A) ∧
    solveDynamicProgramming [e0, e1] = max (e0.A + e1.A) (min (e0.A + e1.B) (e0.B + e1.A)) ∧
    solveBruteForce [e0, e1] = some (max (e0.A + e1.A) (min (e0.A + e1.B) (e0.B + e1.A))) := by
  have hne' : e1.C ≠ e0.C := fun h => hne h.symm
  obtain ⟨b1, b2, b3⟩ := bounded_pair e0 e1 hb
  have a0 := abs_le.mp (le_trans (le_add_of_nonneg_right (abs_nonneg e1.A)) b1)
  have a1 := abs_le.mp (le_trans (le_add_of_nonneg_left (abs_nonneg e0.A)) b1)
  have c0 := neg_abs_le e0.A
  have c1 := neg_abs_le e1.A
  have d0 := le_abs_self e0.A
  have d1 := le_abs_self e1.B
  have hmin : LLONG_MIN ≤ -LLONG_MAX := by decide
  have htp := teamProductivity_pair e0 e1 hne
    (le_trans (min_le_left _ _) (by linarith))
  refine ⟨?_, ?_, ?_, ?_, htp, ?_⟩
  · rw [← occurrences_team, team_pair]
    simp [occurrences, List.count_cons, hne']
  · rw [← occurrences_team, team_pair]
    simp [occurrences, List.count_cons, hne]
  · rw [← totalWith_team, team_pair]
    simp [totalWith, hne']
  · rw [← totalWith_team, team_pair]
    simp [totalWith, hne]
  · exact solvers_pair e0 e1 _ htp (by linarith [a0.1]) a0.2 (by linarith [a1.1]) a1.2
      (by linarith)

theorem two_employees_tie_witness :
    ("go" ≠ "rust" ∧ Bounded [⟨10, 1, "go"⟩, ⟨1, 10, "rust"⟩]) ∧
    candidateTotal [⟨10, 1, "go"⟩, ⟨1, 10, "rust"⟩] 0 1 "go" = 20 ∧
    candidateTotal [⟨10, 1, "go"⟩, ⟨1, 10, "rust"⟩] 0 1 "rust" = 2 ∧
    teamProductivity [⟨10, 1, "go"⟩, ⟨1, 10, "rust"⟩] 0 1 = 2 ∧
    solveDynamicProgramming [⟨10, 1, "go"⟩, ⟨1, 10, "rust"⟩] = 11 ∧
    solveBruteForce [⟨10, 1, "go"⟩, ⟨1, 10, "rust"⟩] = some 11 :=
  ⟨⟨by decide, by decide⟩,
    (two_employees_tie ⟨10, 1, "go"⟩ ⟨1, 10, "rust"⟩ (by decide) (by decide)).2.2.1,
    (two_employees_tie ⟨10, 1, "go"⟩ ⟨1, 10, "rust"⟩ (by decide) (by decide)).2.2.2.1,
    (two_employees_tie ⟨10, 1, "go"⟩ ⟨1, 10, "rust"⟩ (by decide) (by decide)).2.2.2.2.1,
    (two_employees_tie ⟨10, 1, "go"⟩ ⟨1, 10, "rust"⟩ (by decide) (by decide)).2.2.2.2.2.1,
    (two_employees_tie ⟨10, 1, "go"⟩ ⟨1, 10, "rust"⟩ (by decide) (by decide)).2.2.2.2.2.2⟩

/-! ## One iteration of greedy 1 -/

/-- The scan of greedy 1 from a state `(f b, b)` over the ends `s, s + 1, ...` that
follow `b`: it ends on the first end, `b` included, where `f` is largest. -/
theorem scan_first_max (f : Nat → Int) (k : Nat) :
    ∀ (s b : Nat), b < s → ∀ r : Int × Nat,
      r = (List.range' s k).foldl
        (fun (st : Int × Nat) end_ => if f end_ > st.1 then (f end_, end_) else st) (f b, b) →
      r.1 = f r.2 ∧ (r.2 = b ∨ (s ≤ r.2 ∧ r.2 < s + k)) ∧ f b ≤ r.1 ∧
      (∀ e, s ≤ e → e < s + k → f e ≤ r.1) ∧ (r.2 ≠ b → f b < r.1) ∧
      (∀ e, s ≤ e → e < r.2 → f e < r.1) := by
  induction k with
  | zero =>
    intro s b hb r hr
    rw [List.range'_zero, List.foldl_nil] at hr
    subst hr
    refine ⟨rfl, Or.inl rfl, le_refl _, ?_, ?_, ?_⟩
    · intro e h1 h2; omega
    · intro h; exact absurd rfl h
    · intro e h1 h2
      have h3 : e < b := h2
      omega
  | succ k ih =>
    intro s b hb r hr
    rw [List.range'_succ, List.foldl_cons] at hr
    by_cases hgt : f s > f b
    · rw [if_pos hgt] at hr
      obtain ⟨h1, h2, h3, h4, h5, h6⟩ := ih (s + 1) s (Nat.lt_succ_self s) r hr
      refine ⟨h1, ?_, ?_, ?_, ?_, ?_⟩
      · right
        rcases h2 with h2 | h2
        · rw [h2]; omega
        · omega
      · exact le_of_lt (lt_of_lt_of_le hgt h3)
      · intro e he1 he2
        by_cases hes : e = s
        · rw [hes]; exact h3
        · exact h4 e (by omega) (by omega)
      · intro _
        exact lt_of_lt_of_le hgt h3
      · intro e he1 he2
        by_cases hes : e = s
        · rw [hes]
          apply h5
          intro h
          rw [h] at he2
          omega
        · exact h6 e (by omega) he2
    · rw [if_neg hgt] at hr
      simp only [gt_iff_lt, not_lt] at hgt
      obtain ⟨h1, h2, h3, h4, h5, h6⟩ := ih (s + 1) b (by omega) r hr
      refine ⟨h1, ?_, h3, ?_, h5, ?_⟩
      · rcases h2 with h2 | h2
        · left; exact h2
        · right; omega
      · intro e he1 he2
        by_cases hes : e = s
        · rw [hes]; exact le_trans hgt h3
        · exact h4 e (by omega) (by omega)
      · intro e he1 he2
        by_cases hes : e = s
        · rw [hes]
          apply lt_of_le_of_lt hgt
          apply h5
          intro h
          rw [h] at he2
          omega
        · exact h6 e (by omega) he2

/-- The inner loop of greedy 1 started at `currentPos < n`: it returns the first end
in `[currentPos, n)` at which the team productivity is largest, with that value. -/
theorem greedy1Scan_first_max (employees : List Employee) (currentPos n : Nat)
    (hlt : currentPos < n)
    (hlow : LLONG_MIN ≤ teamProductivity employees currentPos currentPos) :
    currentPos ≤ (greedy1Scan employees currentPos n).2 ∧
    (greedy1Scan employees currentPos n).2 < n ∧
    (greedy1Scan employees currentPos n).1
      = teamProductivity employees currentPos (greedy1Scan employees currentPos n).2 ∧
    (∀ e, currentPos ≤ e → e < n →
      teamProductivity employees currentPos e ≤ (greedy1Scan employees currentPos n).1) ∧
    (∀ e, currentPos ≤ e → e < (greedy1Scan employees currentPos n).2 →
      teamProductivity employees currentPos e < (greedy1Scan employees currentPos n).1) := by
  have hrange : List.range' currentPos (n - currentPos)
      = currentPos :: List.range' (currentPos + 1) (n - currentPos - 1) := by
    have : n - currentPos = (n - currentPos - 1) + 1 := by omega
    rw [this, List.range'_succ]
    simp
  have hfirst : (if teamProductivity employees currentPos currentPos > LLONG_MIN
      then (teamProductivity employees currentPos currentPos, currentPos)
      else (LLONG_MIN, currentPos))
      = (teamProductivity employees currentPos currentPos, currentPos) := by
    split
    · rfl
    · rename_i hgt
      simp only [gt_iff_lt, not_lt] at hgt
      rw [le_antisymm hlow hgt]
  unfold greedy1Scan
  rw [hrange, List.foldl_cons]
  simp only []
  rw [hfirst]
  obtain ⟨h1, h2, h3, h4, h5, h6⟩ := scan_first_max (teamProductivity employees currentPos)
    (n - currentPos - 1) (currentPos + 1) currentPos (Nat.lt_succ_self _) _ rfl
  refine ⟨?_, ?_, h1, ?_, ?_⟩
  · rcases h2 with h2 | h2
    · rw [h2]
    · omega
  · rcases h2 with h2 | h2
    · rw [h2]; exact hlt
    · omega
  · intro e he1 he2
    by_cases hes : e = currentPos
    · rw [hes]; exact h3
    · exact h4 e (by omega) (by omega)
  · intro e he1 he2
    by_cases hes : e = currentPos
    · rw [hes]
      apply h5
      intro h
      rw [h] at he2
      omega
    · exact h6 e (by omega) he2

theorem greedy1Loop_step (employees : List Employee) (n fuel : Nat) (totalProductivity : Int)
    (currentPos : Nat) (hlt : currentPos < n) :
    greedy1Loop employees n (fuel + 1) (totalProductivity, currentPos)
      = greedy1Loop employees n fuel
          (totalProductivity + (greedy1Scan employees currentPos n).1,
            (greedy1Scan employees currentPos n).2 + 1) := by
  rw [greedy1Loop, if_pos hlt]

/-! ## One iteration of greedy 2 -/

/-- The expansion loop of greedy 2 entered with `next = teamEnd + 1`: every candidate
up to the returned end was accepted and the one after it, if any, was rejected. -/
theorem greedy2Expand_spec (employees : List Employee) (currentPos : Nat) (count : Nat) :
    ∀ next teamEnd : Nat, teamEnd + 1 = next →
      teamEnd ≤ greedy2Expand employees currentPos count next teamEnd ∧
      greedy2Expand employees currentPos count next teamEnd < next + count ∧
      (∀ k, next ≤ k → k ≤ greedy2Expand employees currentPos count next teamEnd →
        teamProductivity employees currentPos k
          ≥ teamProductivity employees currentPos (k - 1) + teamProductivity employees k k) ∧
      (greedy2Expand employees currentPos count next teamEnd + 1 < next + count →
        teamProductivity employees currentPos
            (greedy2Expand employees currentPos count next teamEnd + 1)
          < teamProductivity employees currentPos
              (greedy2Expand employees currentPos count next teamEnd)
            + teamProductivity employees
                (greedy2Expand employees currentPos count next teamEnd + 1)
                (greedy2Expand employees currentPos count next teamEnd + 1)) := by
  induction count with
  | zero =>
    intro next teamEnd h
    rw [greedy2Expand]
    refine ⟨le_refl _, by omega, ?_, ?_⟩
    · intro k h1 h2; omega
    · intro h1; omega
  | succ count ih =>
    intro next teamEnd h
    rw [greedy2Expand]
    by_cases hacc : teamProductivity employees currentPos next
        ≥ teamProductivity employees currentPos teamEnd + teamProductivity employees next next
    · simp only [if_pos hacc]
      obtain ⟨h1, h2, h3, h4⟩ := ih (next + 1) next rfl
      refine ⟨by omega, by omega, ?_, ?_⟩
      · intro k hk1 hk2
        by_cases hk : k = next
        · subst hk
          have : k - 1 = teamEnd := by omega
          rw [this]
          exact hacc
        · exact h3 k (by omega) hk2
      · intro hlt
        exact h4 (by omega)
    · simp only [if_neg hacc]
      refine ⟨le_refl _, by omega, ?_, ?_⟩
      · intro k hk1 hk2; omega
      · intro _
        rw [h]
        exact lt_of_not_ge hacc

theorem greedy2Loop_step (employees : List Employee) (n fuel : Nat) (totalProductivity : Int)
    (currentPos : Nat) (hlt : currentPos < n) :
    greedy2Loop employees n (fuel + 1) (totalProductivity, currentPos)
      = greedy2Loop employees n fuel
          (totalProductivity + teamProductivity employees currentPos
              (greedy2Expand employees currentPos (n - (currentPos + 1)) (currentPos + 1)
                currentPos),
            greedy2Expand employees currentPos (n - (currentPos + 1)) (currentPos + 1)
              currentPos + 1) := by
  rw [greedy2Loop, if_pos hlt]

/-! ## Greedy 2 against the teams of one -/

theorem primaryBefore_succ (employees : List Employee) (k : Nat) (hk : k < employees.length) :
    primaryBefore employees (k + 1)
      = primaryBefore employees k + (employees.getD k default).A := by
  unfold primaryBefore
  rw [List.take_succ, List.map_append, List.sum_append,
    List.getD_eq_getElem employees default hk, List.getElem?_eq_getElem hk]
  simp

theorem teamProductivity_self (employees : List Employee)
    (hA : ∀ e ∈ employees, e.A ≤ LLONG_MAX) (k : Nat) (hk : k < employees.length) :
    teamProductivity employees k k = (employees.getD k default).A := by
  rw [teamProductivity_single]
  apply min_eq_right
  rw [List.getD_eq_getElem employees default hk]
  exact hA _ (List.getElem_mem hk)

/-- A team that greedy 2 grows by accepted expansions scores at least the sum of the
primary productivities of its members. -/
theorem accepted_team_ge_primary (employees : List Employee)
    (hA : ∀ e ∈ employees, e.A ≤ LLONG_MAX) (p e : Nat) (he : e < employees.length)
    (hacc : ∀ k, p < k → k ≤ e →
      teamProductivity employees p k
        ≥ teamProductivity employees p (k - 1) + teamProductivity employees k k) :
    ∀ k, p ≤ k → k ≤ e →
      primaryBefore employees (k + 1) - primaryBefore employees p
        ≤ teamProductivity employees p k := by
  intro k
  induction k with
  | zero =>
    intro h1 h2
    have hp0 : p = 0 := by omega
    subst hp0
    rw [primaryBefore_succ employees 0 (by omega), teamProductivity_self employees hA 0 (by omega)]
    omega
  | succ k ih =>
    intro h1 h2
    by_cases hpk : p = k + 1
    · subst hpk
      rw [primaryBefore_succ employees (k + 1) (by omega),
        teamProductivity_self employees hA (k + 1) (by omega)]
      omega
    · have h3 := ih (by omega) (by omega)
      have h4 := hacc (k + 1) (by omega) h2
      rw [primaryBefore_succ employees (k + 1) (by omega)]
      rw [teamProductivity_self employees hA (k + 1) (by omega)] at h4
      simp only [Nat.add_sub_cancel] at h4
      omega

theorem greedy2Loop_ge_primary (employees : List Employee)
    (hA : ∀ e ∈ employees, e.A ≤ LLONG_MAX) :
    ∀ fuel currentPos : Nat, ∀ totalProductivity : Int,
      currentPos ≤ employees.length → employees.length - currentPos < fuel →
      ∃ g, greedy2Loop employees employees.length fuel (totalProductivity, currentPos)
          = some (g, employees.length) ∧
        totalProductivity + (primaryBefore employees employees.length
          - primaryBefore employees currentPos) ≤ g := by
  intro fuel
  induction fuel with
  | zero => intro currentPos _ _ h; omega
  | succ fuel ih =>
    intro currentPos totalProductivity hle hfuel
    by_cases hlt : currentPos < employees.length
    · obtain ⟨h1, h2, h3, _⟩ := greedy2Expand_spec employees currentPos
        (employees.length - (currentPos + 1)) (currentPos + 1) currentPos rfl
      rw [greedy2Loop_step employees _ fuel totalProductivity currentPos hlt]
      generalize greedy2Expand employees currentPos (employees.length - (currentPos + 1))
        (currentPos + 1) currentPos = teamEnd at h1 h2 h3
      have hte : teamEnd < employees.length := by omega
      have hteam := accepted_team_ge_primary employees hA currentPos teamEnd hte
        (fun k hk1 hk2 => h3 k hk1 hk2) teamEnd h1 (le_refl _)
      obtain ⟨g, hg, hge⟩ := ih (teamEnd + 1)
        (totalProductivity + teamProductivity employees currentPos teamEnd) (by omega) (by omega)
      exact ⟨g, hg, by omega⟩
    · have : currentPos = employees.length := by omega
      subst this
      refine ⟨totalProductivity, ?_, by omega⟩
      rw [greedy2Loop, if_neg hlt]

/-! ## Termination -/

theorem bruteForceSolve_total (employees : List Employee) (n : Nat) (d : Nat) :
    ∀ start, n - start ≤ d →
      ∃ v, ∀ fuel, n - start < fuel → bruteForceSolve employees fuel start n = some v := by
  induction d with
  | zero =>
    intro start hd
    refine ⟨0, fun fuel hfuel => ?_⟩
    obtain ⟨fuel, rfl⟩ := Nat.exists_eq_succ_of_ne_zero (by omega : fuel ≠ 0)
    rw [bruteForceSolve, if_pos (by omega)]
  | succ d ih =>
    intro start hd
    by_cases hge : start ≥ n
    · refine ⟨0, fun fuel hfuel => ?_⟩
      obtain ⟨fuel, rfl⟩ := Nat.exists_eq_succ_of_ne_zero (by omega : fuel ≠ 0)
      rw [bruteForceSolve, if_pos hge]
    · have hrec : ∀ e, start ≤ e → e < n →
          ∀ fuel, n - (e + 1) < fuel →
            bruteForceSolve employees fuel (e + 1) n
              = some ((bruteForceSolve employees (n - (e + 1) + 1) (e + 1) n).getD 0) := by
        intro e h1 h2 fuel hfuel
        obtain ⟨v, hv⟩ := ih (e + 1) (by omega)
        rw [hv fuel hfuel, hv (n - (e + 1) + 1) (by omega)]
        rfl
      refine ⟨(List.range' start (n - start)).foldl
        (fun m e => max m (teamProductivity employees start e
          + (bruteForceSolve employees (n - (e + 1) + 1) (e + 1) n).getD 0)) LLONG_MIN,
        fun fuel hfuel => ?_⟩
      obtain ⟨fuel, rfl⟩ := Nat.exists_eq_succ_of_ne_zero (by omega : fuel ≠ 0)
      rw [bruteForceSolve, if_neg hge]
      apply foldl_some
      intro m e he
      rw [List.mem_range'_1] at he
      rw [hrec e he.1 (by omega) fuel (by omega)]

theorem greedy1Scan_fold_pos (employees : List Employee) (currentPos n : Nat) (L : List Nat)
    (hL : ∀ e ∈ L, currentPos ≤ e ∧ e < n) (st : Int × Nat)
    (hst : currentPos ≤ st.2 ∧ st.2 < n) :
    currentPos ≤ (L.foldl (fun st end_ =>
        if teamProductivity employees currentPos end_ > st.1
        then (teamProductivity employees currentPos end_, end_) else st) st).2 ∧
    (L.foldl (fun st end_ =>
        if teamProductivity employees currentPos end_ > st.1
        then (teamProductivity employees currentPos end_, end_) else st) st).2 < n := by
  induction L generalizing st with
  | nil => exact hst
  | cons e rest ih =>
    rw [List.foldl_cons]
    apply ih (fun x hx => hL x (List.mem_cons_of_mem _ hx))
    have he := hL e (List.mem_cons_self _ _)
    split
    · exact he
    · exact hst

theorem greedy1Scan_pos (employees : List Employee) (currentPos n : Nat)
    (hlt : currentPos < n) :
    currentPos ≤ (greedy1Scan employees currentPos n).2 ∧
    (greedy1Scan employees currentPos n).2 < n := by
  unfold greedy1Scan
  apply greedy1Scan_fold_pos
  · intro e he
    rw [List.mem_range'_1] at he
    omega
  · exact ⟨le_refl _, hlt⟩

theorem greedy1Loop_total (employees : List Employee) (n : Nat) :
    ∀ fuel currentPos : Nat, ∀ totalProductivity : Int, currentPos ≤ n → n - currentPos < fuel →
      ∃ t, greedy1Loop employees n fuel (totalProductivity, currentPos) = some (t, n) := by
  intro fuel
  induction fuel with
  | zero => intro currentPos _ _ h; omega
  | succ fuel ih =>
    intro currentPos totalProductivity hle hfuel
    by_cases hlt : currentPos < n
    · obtain ⟨h1, h2⟩ := greedy1Scan_pos employees currentPos n hlt
      rw [greedy1Loop_step employees n fuel totalProductivity currentPos hlt]
      exact ih _ _ (by omega) (by omega)
    · have : currentPos = n := by omega
      subst this
      refine ⟨totalProductivity, ?_⟩
      rw [greedy1Loop, if_neg hlt]

theorem greedy2Loop_total (employees : List Employee) (n : Nat) :
    ∀ fuel currentPos : Nat, ∀ totalProductivity : Int, currentPos ≤ n → n - currentPos < fuel →
      ∃ t, greedy2Loop employees n fuel (totalProductivity, currentPos) = some (t, n) := by
  intro fuel currentPos totalProductivity hle hfuel
  obtain ⟨P, _, hres⟩ := greedy2Loop_spec employees n fuel currentPos totalProductivity hle hfuel
  exact ⟨_, hres⟩

theorem dpRows_length (employees : List Employee) :
    ∀ m, (dpRows employees m).length = employees.length + 1 := by
  intro m
  induction m with
  | zero => simp [dpRows]
  | succ m ih =>
    rw [dpRows_succ]
    generalize hd : (dpRows employees m).set (m + 1) LLONG_MIN = d0
    have hlen : d0.length = employees.length + 1 := by rw [← hd, List.length_set, ih]
    clear hd
    generalize List.range' 0 (m + 1) = L
    induction L generalizing d0 with
    | nil => exact hlen
    | cons j rest ihL =>
      rw [List.foldl_cons]
      apply ihL
      rw [List.length_set, hlen]

/-- C18: the four solvers terminate on every employee sequence.  Brute force calls
itself only with a larger `start` up to `n`, so a recursion depth of `n - start + 1`
is enough and more fuel does not change the result; the table of the dynamic
programming has `n + 1` entries; in both greedy solvers `currentPos` grows in every
iteration, stays at most `n`, and the loop is left with `currentPos = n`. -/
theorem solvers_terminate (employees : List Employee) :
    (∀ start end_, end_ ∈ List.range' start (employees.length - start) →
      start < end_ + 1 ∧ end_ + 1 ≤ employees.length) ∧
    (∀ start, ∃ v, ∀ fuel, employees.length - start < fuel →
      bruteForceSolve employees fuel start employees.length = some v) ∧
    (∃ v, solveBruteForce employees = some v) ∧
    (dpTable employees).length = employees.length + 1 ∧
    (∀ p, p < employees.length →
      p < (greedy1Scan employees p employees.length).2 + 1 ∧
      (greedy1Scan employees p employees.length).2 + 1 ≤ employees.length) ∧
    (∃ t, greedy1Loop employees employees.length (employees.length + 1) (0, 0)
      = some (t, employees.length)) ∧
    (∃ g, solveGreedy1 employees = some g) ∧
    (∀ p, p < employees.length →
      p < greedy2Expand employees p (employees.length - (p + 1)) (p + 1) p + 1 ∧
      greedy2Expand employees p (employees.length - (p + 1)) (p + 1) p + 1
        ≤ employees.length) ∧
    (∃ t, greedy2Loop employees employees.length (employees.length + 1) (0, 0)
      = some (t, employees.length)) ∧
    (∃ g, solveGreedy2 employees = some g) := by
  have hbf := fun start =>
    bruteForceSolve_total employees employees.length (employees.length - start) start (le_refl _)
  have hg1 := greedy1Loop_total employees employees.length (employees.length + 1) 0 0
    (Nat.zero_le _) (by omega)
  have hg2 := greedy2Loop_total employees employees.length (employees.length + 1) 0 0
    (Nat.zero_le _) (by omega)
  refine ⟨?_, hbf, ?_, ?_, ?_, hg1, ?_, ?_, hg2, ?_⟩
  · intro start end_ he
    rw [List.mem_range'_1] at he
    omega
  · obtain ⟨v, hv⟩ := hbf 0
    exact ⟨v, hv _ (by omega)⟩
  · rw [dpTable_eq_dpRows]
    exact dpRows_length employees _
  · intro p hp
    obtain ⟨h1, h2⟩ := greedy1Scan_pos employees p employees.length hp
    omega
  · obtain ⟨t, ht⟩ := hg1
    exact ⟨t, by unfold solveGreedy1; rw [ht]; rfl⟩
  · intro p hp
    rcases greedy2Expand_range employees p (employees.length - (p + 1)) (p + 1) p with h | h
    · rw [h]; omega
    · omega
  · obtain ⟨t, ht⟩ := hg2
    exact ⟨t, by unfold solveGreedy2; rw [ht]; rfl⟩

/-! ## The table of the dynamic programming -/

theorem dpRows_step (employees : List Employee) (m : Nat) (hm : m + 1 ≤ employees.length) :
    dpRows employees (m + 1)
      = (dpRows employees m).set (m + 1)
          ((List.range' 0 (m + 1)).foldl
            (fun v j => max v ((dpRows employees m).getD j 0
              + teamProductivity employees j (m + 1 - 1))) LLONG_MIN) := by
  have hlen := dpRows_length employees m
  rw [dpRows_succ]
  exact dp_row (dpRows employees m) (m + 1) (by omega)
    (fun j => teamProductivity employees j (m + 1 - 1)) (List.range' 0 (m + 1))
    (by intro j hj; rw [List.mem_range'_1] at hj; omega) LLONG_MIN

theorem dpRows_getD_succ (employees : List Employee) (m k : Nat)
    (hm : m + 1 ≤ employees.length) (hk : k ≤ m) :
    (dpRows employees (m + 1)).getD k 0 = (dpRows employees m).getD k 0 := by
  rw [dpRows_step employees m hm]
  have hne : m + 1 ≠ k := by omega
  simp [List.getD_eq_getElem?_getD, List.getElem?_set_ne hne]

/-- An entry of the table is final once its row has been filled. -/
theorem dpRows_stable (employees : List Employee) (k : Nat) :
    ∀ m, k ≤ m → m ≤ employees.length →
      (dpRows employees m).getD k 0 = (dpRows employees k).getD k 0 := by
  intro m
  induction m with
  | zero =>
    intro h _
    have : k = 0 := by omega
    rw [this]
  | succ m ih =>
    intro h1 h2
    by_cases hk : k = m + 1
    · rw [hk]
    · rw [dpRows_getD_succ employees m k h2 (by omega)]
      exact ih (by omega) (by omega)

theorem dpTable_zero (employees : List Employee) : (dpTable employees).getD 0 0 = 0 := by
  rw [dpTable_eq_dpRows, dpRows_stable employees 0 employees.length (Nat.zero_le _) (le_refl _)]
  simp [dpRows]

/-- Row `i` of the final table is the running maximum, started at `LLONG_MIN`, of
`dp[j] + teamProductivity(j, i - 1)` over `j < i`, read from the final table. -/
theorem dpTable_row (employees : List Employee) (i : Nat) (h1 : 1 ≤ i)
    (hi : i ≤ employees.length) :
    (dpTable employees).getD i 0
      = (List.range' 0 i).foldl
          (fun v j => max v ((dpTable employees).getD j 0
            + teamProductivity employees j (i - 1))) LLONG_MIN := by
  obtain ⟨m, rfl⟩ := Nat.exists_eq_add_of_le h1
  rw [Nat.add_comm 1 m] at hi ⊢
  rw [dpTable_eq_dpRows, dpRows_stable employees (m + 1) employees.length hi (le_refl _),
    dpRows_step employees m hi]
  have hlt : m + 1 < (dpRows employees m).length := by
    rw [dpRows_length]; omega
  have hget : ∀ v : Int, ((dpRows employees m).set (m + 1) v).getD (m + 1) 0 = v := by
    intro v
    simp [List.getD_eq_getElem?_getD, hlt]
  rw [hget]
  apply List.foldl_ext
  intro v j hj
  rw [List.mem_range'_1] at hj
  rw [dpRows_stable employees j employees.length (by omega) (le_refl _),
    dpRows_stable employees j m (by omega) (by omega)]

/-- C15: on a bounded employee sequence of length `n` the table of the dynamic
programming satisfies `dp[0] = 0`; for `1 <= i <= n` the entry `dp[i]` is the largest
`dp[j] + teamProductivity(j, i - 1)` over `j < i`; and every `dp[i]`, `i <= n`, is the
maximum total productivity over the partitions of the first `i` employees. -/
theorem dpTable_invariant (employees : List Employee) (hb : Bounded employees) (i : Nat)
    (hi : i ≤ employees.length) :
    (dpTable employees).getD 0 0 = 0 ∧
    (1 ≤ i →
      (∃ j, j < i ∧ (dpTable employees).getD i 0
        = (dpTable employees).getD j 0 + teamProductivity employees j (i - 1)) ∧
      ∀ j, j < i → (dpTable employees).getD j 0 + teamProductivity employees j (i - 1)
        ≤ (dpTable employees).getD i 0) ∧
    (∃ ranges, IsPartition 0 i ranges ∧
      partitionValue employees ranges = (dpTable employees).getD i 0) ∧
    ∀ ranges, IsPartition 0 i ranges →
      partitionValue employees ranges ≤ (dpTable employees).getD i 0 := by
  have hmax : ∀ k, k ≤ employees.length →
      IsMaxPartitionValue employees 0 k ((dpTable employees).getD k 0) := by
    intro k hk
    rw [dpTable_eq_dpRows]
    exact (dpRows_spec employees
      (fun b P hle hP => partitionValue_ge_min employees hb 0 b hle P hP)
      employees.length (le_refl _)).2 k hk
  refine ⟨dpTable_zero employees, ?_, (hmax i hi).1, (hmax i hi).2⟩
  intro h1
  obtain ⟨_, h2, _⟩ := foldl_max_spec (List.range' 0 i)
    (fun j => (dpTable employees).getD j 0 + teamProductivity employees j (i - 1)) LLONG_MIN
  rw [← dpTable_row employees i h1 hi] at h2
  have hupper : ∀ j, j < i → (dpTable employees).getD j 0
      + teamProductivity employees j (i - 1) ≤ (dpTable employees).getD i 0 := by
    intro j hj
    exact h2 j (by rw [List.mem_range'_1]; omega)
  refine ⟨?_, hupper⟩
  obtain ⟨⟨P, hP, hPv⟩, _⟩ := hmax i hi
  obtain ⟨Q, j, hPQ, hQ, hj⟩ := isPartition_snoc_inv P 0 i (by omega) hP
  have hQle := (hmax j (by omega)).2 Q hQ
  have hup := hupper j hj
  rw [hPQ, partitionValue_append, partitionValue_cons] at hPv
  simp only [partitionValue, List.map_nil, List.sum_nil, add_zero] at hPv hQle
  exact ⟨j, hj, by omega⟩

theorem dpTable_invariant_witness :
    (Bounded [⟨5, 1, "go"⟩, ⟨7, 2, "go"⟩, ⟨-3, 20, "c"⟩] ∧
      2 ≤ [(⟨5, 1, "go"⟩ : Employee), ⟨7, 2, "go"⟩, ⟨-3, 20, "c"⟩].length) ∧
    (dpTable [⟨5, 1, "go"⟩, ⟨7, 2, "go"⟩, ⟨-3, 20, "c"⟩]).getD 0 0 = 0 ∧
    (1 ≤ 2 →
      (∃ j, j < 2 ∧ (dpTable [⟨5, 1, "go"⟩, ⟨7, 2, "go"⟩, ⟨-3, 20, "c"⟩]).getD 2 0
        = (dpTable [⟨5, 1, "go"⟩, ⟨7, 2, "go"⟩, ⟨-3, 20, "c"⟩]).getD j 0
          + teamProductivity [⟨5, 1, "go"⟩, ⟨7, 2, "go"⟩, ⟨-3, 20, "c"⟩] j (2 - 1)) ∧
      ∀ j, j < 2 → (dpTable [⟨5, 1, "go"⟩, ⟨7, 2, "go"⟩, ⟨-3, 20, "c"⟩]).getD j 0
          + teamProductivity [⟨5, 1, "go"⟩, ⟨7, 2, "go"⟩, ⟨-3, 20, "c"⟩] j (2 - 1)
        ≤ (dpTable [⟨5, 1, "go"⟩, ⟨7, 2, "go"⟩, ⟨-3, 20, "c"⟩]).getD 2 0) ∧
    (∃ ranges, IsPartition 0 2 ranges ∧
      partitionValue [⟨5, 1, "go"⟩, ⟨7, 2, "go"⟩, ⟨-3, 20, "c"⟩] ranges
        = (dpTable [⟨5, 1, "go"⟩, ⟨7, 2, "go"⟩, ⟨-3, 20, "c"⟩]).getD 2 0) ∧
    ∀ ranges, IsPartition 0 2 ranges →
      partitionValue [⟨5, 1, "go"⟩, ⟨7, 2, "go"⟩, ⟨-3, 20, "c"⟩] ranges
        ≤ (dpTable [⟨5, 1, "go"⟩, ⟨7, 2, "go"⟩, ⟨-3, 20, "c"⟩]).getD 2 0 :=
  ⟨⟨by decide, by decide⟩,
    dpTable_invariant [⟨5, 1, "go"⟩, ⟨7, 2, "go"⟩, ⟨-3, 20, "c"⟩] (by decide) 2 (by decide)⟩

/-! ## Renaming the languages -/

theorem team_renameLanguages (f : String → String) (employees : List Employee) (l r : Nat)
    (hr : r < employees.length) :
    team (renameLanguages f employees) l r = (team employees l r).map (renameLanguage f) := by
  rw [team_eq_slice employees l r hr,
    team_eq_slice (renameLanguages f employees) l r (by unfold renameLanguages; simpa using hr)]
  unfold renameLanguages
  rw [List.map_take, List.map_drop]

theorem occurrences_rename (f : String → String) (hf : Function.Injective f)
    (xs : List Employee) (k : String) :
    occurrences (xs.map (renameLanguage f)) (f k) = occurrences xs k := by
  unfold occurrences
  rw [List.map_map]
  have : (Employee.C ∘ renameLanguage f) = f ∘ Employee.C := rfl
  rw [this, ← List.map_map]
  exact List.count_map_of_injective _ f hf k

theorem occurrences_rename_pos (f : String → String) (xs : List Employee) (k2 : String)
    (h : 0 < occurrences (xs.map (renameLanguage f)) k2) : ∃ k, k2 = f k := by
  unfold occurrences at h
  obtain ⟨e, he, hC⟩ := List.mem_map.mp (List.count_pos_iff.mp h)
  obtain ⟨e0, _, rfl⟩ := List.mem_map.mp he
  exact ⟨e0.C, hC.symm⟩

theorem totalWith_rename (f : String → String) (hf : Function.Injective f)
    (xs : List Employee) (k : String) :
    totalWith (xs.map (renameLanguage f)) (f k) = totalWith xs k := by
  unfold totalWith
  rw [List.map_map]
  congr 1
  apply List.map_congr_left
  intro e _
  simp only [Function.comp, renameLanguage]
  by_cases h : e.C = k
  · rw [if_pos h, if_pos (congrArg f h)]
  · rw [if_neg h, if_neg (fun h2 => h (hf h2))]

theorem isTop_rename (f : String → String) (hf : Function.Injective f)
    (xs : List Employee) (k : String) (h : IsTop xs k) :
    IsTop (xs.map (renameLanguage f)) (f k) := by
  intro other
  rw [occurrences_rename f hf xs k]
  by_cases hz : occurrences (xs.map (renameLanguage f)) other = 0
  · omega
  · obtain ⟨o, rfl⟩ := occurrences_rename_pos f xs other (Nat.pos_of_ne_zero hz)
    rw [occurrences_rename f hf xs o]
    exact h o

theorem isTop_of_rename (f : String → String) (hf : Function.Injective f)
    (xs : List Employee) (hne : xs ≠ []) (k2 : String)
    (h : IsTop (xs.map (renameLanguage f)) k2) : ∃ k, k2 = f k ∧ IsTop xs k := by
  obtain ⟨e, rest, hx⟩ := List.exists_cons_of_ne_nil hne
  have hp : 0 < occurrences xs e.C := by rw [hx]; exact occurrences_head_pos e rest
  rw [← occurrences_rename f hf xs e.C] at hp
  obtain ⟨k, rfl⟩ := occurrences_rename_pos f xs k2 (lt_of_lt_of_le hp (h (f e.C)))
  refine ⟨k, rfl, fun other => ?_⟩
  rw [← occurrences_rename f hf xs other, ← occurrences_rename f hf xs k]
  exact h (f other)

theorem teamProductivity_rename (f : String → String) (hf : Function.Injective f)
    (employees : List Employee) (l r : Nat) (hlr : l ≤ r) (hr : r < employees.length) :
    teamProductivity (renameLanguages f employees) l r = teamProductivity employees l r := by
  have hne := team_ne_nil employees l r hlr
  have hne2 := team_ne_nil (renameLanguages f employees) l r hlr
  obtain ⟨a1, a2, a3⟩ := teamProductivity_spec employees l r hne
  obtain ⟨b1, b2, b3⟩ := teamProductivity_spec (renameLanguages f employees) l r hne2
  rw [team_renameLanguages f employees l r hr] at b2 b3
  apply le_antisymm
  · rcases a3 with a3 | ⟨k, hk, a3⟩
    · rw [a3]; exact b1
    · rw [a3, ← totalWith_rename f hf _ k]
      exact b2 (f k) (isTop_rename f hf _ k hk)
  · rcases b3 with b3 | ⟨k2, hk2, b3⟩
    · rw [b3]; exact a1
    · obtain ⟨k, rfl, hk⟩ := isTop_of_rename f hf _ hne k2 hk2
      rw [b3, totalWith_rename f hf _ k]
      exact a2 k hk

/-! ## Solvers on sequences with the same scores -/

theorem bruteForceSolve_congr (e1 e2 : List Employee) (n : Nat)
    (h : ∀ l r, l ≤ r → r < n → teamProductivity e1 l r = teamProductivity e2 l r) :
    ∀ fuel start, bruteForceSolve e1 fuel start n = bruteForceSolve e2 fuel start n := by
  intro fuel
  induction fuel with
  | zero => intro start; rfl
  | succ fuel ih =>
    intro start
    rw [bruteForceSolve, bruteForceSolve]
    by_cases hge : start ≥ n
    · rw [if_pos hge, if_pos hge]
    · rw [if_neg hge, if_neg hge]
      apply List.foldl_ext
      intro acc e he
      rw [List.mem_range'_1] at he
      rw [ih (e + 1), h start e he.1 (by omega)]

theorem dpTable_congr (e1 e2 : List Employee) (hlen : e1.length = e2.length)
    (h : ∀ l r, l ≤ r → r < e1.length → teamProductivity e1 l r = teamProductivity e2 l r) :
    dpTable e1 = dpTable e2 := by
  unfold dpTable
  simp only []
  rw [← hlen]
  apply List.foldl_ext
  intro dp i hi
  rw [List.mem_range'_1] at hi
  apply List.foldl_ext
  intro d j hj
  rw [List.mem_range'_1] at hj
  rw [h j (i - 1) (by omega) (by omega)]

theorem greedy1Scan_congr (e1 e2 : List Employee) (n : Nat)
    (h : ∀ l r, l ≤ r → r < n → teamProductivity e1 l r = teamProductivity e2 l r)
    (currentPos : Nat) : greedy1Scan e1 currentPos n = greedy1Scan e2 currentPos n := by
  unfold greedy1Scan
  apply List.foldl_ext
  intro st e he
  rw [List.mem_range'_1] at he
  rw [h currentPos e he.1 (by omega)]

theorem greedy1Loop_congr (e1 e2 : List Employee) (n : Nat)
    (h : ∀ l r, l ≤ r → r < n → teamProductivity e1 l r = teamProductivity e2 l r) :
    ∀ fuel st, greedy1Loop e1 n fuel st = greedy1Loop e2 n fuel st := by
  intro fuel
  induction fuel with
  | zero => intro st; rfl
  | succ fuel ih =>
    intro st
    obtain ⟨t, p⟩ := st
    rw [greedy1Loop, greedy1Loop]
    by_cases hlt : p < n
    · rw [if_pos hlt, if_pos hlt]
      simp only []
      rw [greedy1Scan_congr e1 e2 n h p, ih]
    · rw [if_neg hlt, if_neg hlt]

theorem greedy2Expand_congr (e1 e2 : List Employee) (n : Nat)
    (h : ∀ l r, l ≤ r → r < n → teamProductivity e1 l r = teamProductivity e2 l r)
    (currentPos : Nat) :
    ∀ count next teamEnd, currentPos ≤ teamEnd → teamEnd < next → next + count ≤ n →
      greedy2Expand e1 currentPos count next teamEnd
        = greedy2Expand e2 currentPos count next teamEnd := by
  intro count
  induction count with
  | zero => intro next teamEnd _ _ _; rfl
  | succ count ih =>
    intro next teamEnd h1 h2 h3
    rw [greedy2Expand, greedy2Expand]
    rw [h currentPos next (by omega) (by omega), h currentPos teamEnd h1 (by omega),
      h next next (le_refl _) (by omega), ih (next + 1) next (by omega) (by omega) (by omega)]

theorem greedy2Loop_congr (e1 e2 : List Employee) (n : Nat)
    (h : ∀ l r, l ≤ r → r < n → teamProductivity e1 l r = teamProductivity e2 l r) :
    ∀ fuel st, greedy2Loop e1 n fuel st = greedy2Loop e2 n fuel st := by
  intro fuel
  induction fuel with
  | zero => intro st; rfl
  | succ fuel ih =>
    intro st
    obtain ⟨t, p⟩ := st
    rw [greedy2Loop, greedy2Loop]
    by_cases hlt : p < n
    · rw [if_pos hlt, if_pos hlt]
      simp only []
      have hexp := greedy2Expand_congr e1 e2 n h p (n - (p + 1)) (p + 1) p (le_refl _)
        (by omega) (by omega)
      rw [hexp, ih]
      rcases greedy2Expand_range e2 p (n - (p + 1)) (p + 1) p with hr | hr
      · rw [hr, h p p (le_refl _) hlt]
      · rw [h p _ (by omega) (by omega)]
    · rw [if_neg hlt, if_neg hlt]

/-- Two sequences of the same length with the same scores on all valid ranges get
the same result from each of the four solvers. -/
theorem solvers_congr (e1 e2 : List Employee) (hlen : e1.length = e2.length)
    (h : ∀ l r, l ≤ r → r < e1.length → teamProductivity e1 l r = teamProductivity e2 l r) :
    solveBruteForce e1 = solveBruteForce e2 ∧
    solveDynamicProgramming e1 = solveDynamicProgramming e2 ∧
    solveGreedy1 e1 = solveGreedy1 e2 ∧ solveGreedy2 e1 = solveGreedy2 e2 := by
  refine ⟨?_, ?_, ?_, ?_⟩
  · unfold solveBruteForce
    rw [← hlen]
    exact bruteForceSolve_congr e1 e2 e1.length h _ _
  · unfold solveDynamicProgramming
    rw [dpTable_congr e1 e2 hlen h, hlen]
  · unfold solveGreedy1
    rw [← hlen, greedy1Loop_congr e1 e2 e1.length h]
  · unfold solveGreedy2
    rw [← hlen, greedy2Loop_congr e1 e2 e1.length h]

/-- C20: language names matter only through equality: renaming the favourite
languages by an injective `f` leaves the team productivity of every valid range, and
hence the results of the four solvers, unchanged. -/
theorem renaming_invariance (f : String → String) (hf : Function.Injective f)
    (employees : List Employee) :
    (∀ l r, l ≤ r → r < employees.length →
      teamProductivity (renameLanguages f employees) l r = teamProductivity employees l r) ∧
    solveBruteForce (renameLanguages f employees) = solveBruteForce employees ∧
    solveDynamicProgramming (renameLanguages f employees)
      = solveDynamicProgramming employees ∧
    solveGreedy1 (renameLanguages f employees) = solveGreedy1 employees ∧
    solveGreedy2 (renameLanguages f employees) = solveGreedy2 employees := by
  have hlen : (renameLanguages f employees).length = employees.length := by
    unfold renameLanguages
    exact List.length_map _ _
  have htp : ∀ l r, l ≤ r → r < (renameLanguages f employees).length →
      teamProductivity (renameLanguages f employees) l r = teamProductivity employees l r :=
    fun l r hlr hr => teamProductivity_rename f hf employees l r hlr (by omega)
  exact ⟨fun l r hlr hr => teamProductivity_rename f hf employees l r hlr hr,
    solvers_congr _ _ hlen htp⟩

theorem reverse_name_injective :
    Function.Injective (fun s : String => String.mk s.data.reverse) := by
  intro a b h
  have h2 : a.data.reverse = b.data.reverse := congrArg String.data h
  exact String.ext (List.reverse_injective h2)

theorem renaming_invariance_witness :
    Function.Injective (fun s : String => String.mk s.data.reverse) ∧
    teamProductivity (renameLanguages (fun s : String => String.mk s.data.reverse)
        [⟨10, 1, "ab"⟩, ⟨1, 10, "ba"⟩, ⟨4, 2, "ab"⟩]) 0 1
      = teamProductivity [⟨10, 1, "ab"⟩, ⟨1, 10, "ba"⟩, ⟨4, 2, "ab"⟩] 0 1 ∧
    solveDynamicProgramming (renameLanguages (fun s : String => String.mk s.data.reverse)
        [⟨10, 1, "ab"⟩, ⟨1, 10, "ba"⟩, ⟨4, 2, "ab"⟩])
      = solveDynamicProgramming [⟨10, 1, "ab"⟩, ⟨1, 10, "ba"⟩, ⟨4, 2, "ab"⟩] :=
  ⟨reverse_name_injective,
    (renaming_invariance _ reverse_name_injective
      [⟨10, 1, "ab"⟩, ⟨1, 10, "ba"⟩, ⟨4, 2, "ab"⟩]).1 0 1 (by decide) (by decide),
    (renaming_invariance _ reverse_name_injective
      [⟨10, 1, "ab"⟩, ⟨1, 10, "ba"⟩, ⟨4, 2, "ab"⟩]).2.2.1⟩

/-! ## Lower bounds on the optimum -/

/-- Every partition of a prefix is worth at most its table entry, on every input. -/
theorem dpRows_upper (employees : List Employee) :
    ∀ m, m ≤ employees.length → ∀ k, k ≤ m → ∀ P, IsPartition 0 k P →
      partitionValue employees P ≤ (dpRows employees m).getD k 0 := by
  intro m
  induction m with
  | zero =>
    intro _ k hk P hP
    have hk0 : k = 0 := by omega
    subst hk0
    have hdp : (dpRows employees 0).getD 0 0 = 0 := by simp [dpRows]
    rw [hdp]
    exact (isMaxPartitionValue_empty employees 0).2 P hP
  | succ m ih =>
    intro hm k hk P hP
    by_cases hkm : k = m + 1
    · subst hkm
      obtain ⟨Q, j, hPQ, hQ, hj⟩ := isPartition_snoc_inv P 0 (m + 1) (Nat.succ_pos m) hP
      have hQle := ih (by omega) j (by omega) Q hQ
      obtain ⟨_, h2, _⟩ := foldl_max_spec (List.range' 0 (m + 1))
        (fun j => (dpRows employees m).getD j 0 + teamProductivity employees j (m + 1 - 1))
        LLONG_MIN
      have hr := h2 j (by rw [List.mem_range'_1]; omega)
      have hlt : m + 1 < (dpRows employees m).length := by
        rw [dpRows_length]; omega
      have hget : ∀ v : Int, ((dpRows employees m).set (m + 1) v).getD (m + 1) 0 = v := by
        intro v
        simp [List.getD_eq_getElem?_getD, hlt]
      rw [dpRows_step employees m hm, hget, hPQ, partitionValue_append, partitionValue_cons]
      simp only [partitionValue, List.map_nil, List.sum_nil, add_zero] at hr hQle ⊢
      linarith
    · rw [dpRows_getD_succ employees m k hm (by omega)]
      exact ih (by omega) k (by omega) P hP

theorem partitionValue_le_solveDynamicProgramming (employees : List Employee)
    (P : List (Nat × Nat)) (hP : IsPartition 0 employees.length P) :
    partitionValue employees P ≤ solveDynamicProgramming employees := by
  unfold solveDynamicProgramming
  rw [dpTable_eq_dpRows]
  exact dpRows_upper employees employees.length (le_refl _) employees.length (le_refl _) P hP

/-- The partition into teams of one, from `a` on. -/
theorem singletons_partition (employees : List Employee)
    (hA : ∀ e ∈ employees, e.A ≤ LLONG_MAX) (d : Nat) :
    ∀ a, a + d = employees.length →
      ∃ P, IsPartition a employees.length P ∧
        partitionValue employees P
          = primaryBefore employees employees.length - primaryBefore employees a := by
  induction d with
  | zero =>
    intro a ha
    refine ⟨[], by simpa [IsPartition] using ha, ?_⟩
    have : a = employees.length := by omega
    rw [this]
    simp [partitionValue]
  | succ d ih =>
    intro a ha
    obtain ⟨P, hP, hv⟩ := ih (a + 1) (by omega)
    refine ⟨(a, a) :: P, ⟨rfl, le_refl _, by omega, hP⟩, ?_⟩
    rw [partitionValue_cons, hv]
    simp only
    rw [teamProductivity_self employees hA a (by omega),
      primaryBefore_succ employees a (by omega)]
    ring

theorem primary_le_solveDynamicProgramming (employees : List Employee)
    (hA : ∀ e ∈ employees, e.A ≤ LLONG_MAX) :
    (employees.map Employee.A).sum ≤ solveDynamicProgramming employees := by
  obtain ⟨P, hP, hv⟩ := singletons_partition employees hA employees.length 0 (by omega)
  have h := partitionValue_le_solveDynamicProgramming employees P hP
  rw [hv, primaryBefore_zero, primaryBefore_length] at h
  omega

/-! ## Scores read off the team -/

theorem teamProductivity_congr_team (e1 e2 : List Employee) (l r l2 r2 : Nat) (hlr : l ≤ r)
    (hlr2 : l2 ≤ r2) (h : team e1 l r = team e2 l2 r2) :
    teamProductivity e1 l r = teamProductivity e2 l2 r2 :=
  le_antisymm
    (teamProductivity_le_of_perm e1 e2 l r l2 r2 hlr hlr2 (by rw [h]))
    (teamProductivity_le_of_perm e2 e1 l2 r2 l r hlr2 hlr (by rw [h]))

theorem teamProductivity_le_of_totalWith_le (employees : List Employee) (l r : Nat)
    (hlr : l ≤ r) (b : Int) (h : ∀ lang, totalWith (team employees l r) lang ≤ b) :
    teamProductivity employees l r ≤ b := by
  have hne := team_ne_nil employees l r hlr
  obtain ⟨_, h2, _⟩ := teamProductivity_spec employees l r hne
  obtain ⟨lang, hl⟩ := exists_isTop employees l r hne
  exact le_trans (h2 lang hl) (h lang)

theorem team_of_drop (employees : List Employee) (l r : Nat) (hr : r < employees.length)
    (rest : List Employee) (h : employees.drop l = rest) :
    team employees l r = rest.take (r + 1 - l) := by
  rw [team_eq_slice employees l r hr, h]

theorem drop_succ_of_drop (employees : List Employee) (l : Nat) (e : Employee)
    (rest : List Employee) (h : employees.drop l = e :: rest) :
    employees.drop (l + 1) = rest ∧ l < employees.length := by
  constructor
  · rw [← List.drop_drop, h]
    rfl
  · by_contra hc
    rw [List.drop_of_length_le (by omega)] at h
    exact List.noConfusion h

theorem totalWith_cons (e : Employee) (xs : List Employee) (lang : String) :
    totalWith (e :: xs) lang = (if e.C = lang then e.A else e.B) + totalWith xs lang := by
  simp [totalWith]

theorem occurrences_cons (e : Employee) (xs : List Employee) (lang : String) :
    occurrences (e :: xs) lang = occurrences xs lang + (if e.C = lang then 1 else 0) := by
  simp [occurrences, List.count_cons]

/-- The scan of greedy 1 is determined by the first end of largest team productivity. -/
theorem greedy1Scan_eq (employees : List Employee) (currentPos n e : Nat)
    (hlow : LLONG_MIN ≤ teamProductivity employees currentPos currentPos)
    (h1 : currentPos ≤ e) (h2 : e < n)
    (hmax : ∀ e2, currentPos ≤ e2 → e2 < n →
      teamProductivity employees currentPos e2 ≤ teamProductivity employees currentPos e)
    (hfirst : ∀ e2, currentPos ≤ e2 → e2 < e →
      teamProductivity employees currentPos e2 < teamProductivity employees currentPos e) :
    greedy1Scan employees currentPos n = (teamProductivity employees currentPos e, e) := by
  obtain ⟨a1, a2, a3, a4, a5⟩ :=
    greedy1Scan_first_max employees currentPos n (by omega) hlow
  have heq : (greedy1Scan employees currentPos n).2 = e := by
    rcases Nat.lt_trichotomy (greedy1Scan employees currentPos n).2 e with h | h | h
    · have := hfirst _ a1 h
      have := a4 e h1 h2
      omega
    · exact h
    · have := a5 e h1 h
      have := hmax _ a1 a2
      omega
  apply Prod.ext
  · rw [a3, heq]
  · exact heq

/-! ## Concatenation -/

theorem team_append_left (xs ys : List Employee) (l r : Nat) (hr : r < xs.length) :
    team (xs ++ ys) l r = team xs l r := by
  rw [team_eq_slice (xs ++ ys) l r (by rw [List.length_append]; omega),
    team_eq_slice xs l r hr]
  by_cases hl : l ≤ xs.length
  · rw [List.drop_append_of_le_length hl, List.take_append_of_le_length]
    rw [List.length_drop]
    omega
  · have h0 : r + 1 - l = 0 := by omega
    rw [h0, List.take_zero, List.take_zero]

theorem team_append_right (xs ys : List Employee) (l r : Nat) (hr : r < ys.length) :
    team (xs ++ ys) (xs.length + l) (xs.length + r) = team ys l r := by
  rw [team_eq_slice (xs ++ ys) _ _ (by rw [List.length_append]; omega),
    team_eq_slice ys l r hr]
  have h1 : (xs ++ ys).drop (xs.length + l) = ys.drop l := by
    rw [List.drop_append]
  have h2 : xs.length + r + 1 - (xs.length + l) = r + 1 - l := by omega
  rw [h1, h2]

theorem teamProductivity_append_left (xs ys : List Employee) (l r : Nat) (hlr : l ≤ r)
    (hr : r < xs.length) :
    teamProductivity (xs ++ ys) l r = teamProductivity xs l r :=
  teamProductivity_congr_team (xs ++ ys) xs l r l r hlr hlr (team_append_left xs ys l r hr)

theorem teamProductivity_append_right (xs ys : List Employee) (l r : Nat) (hlr : l ≤ r)
    (hr : r < ys.length) :
    teamProductivity (xs ++ ys) (xs.length + l) (xs.length + r) = teamProductivity ys l r :=
  teamProductivity_congr_team (xs ++ ys) ys _ _ l r (by omega) hlr
    (team_append_right xs ys l r hr)

theorem isPartition_shift (k : Nat) (Q : List (Nat × Nat)) :
    ∀ a b, IsPartition a b Q →
      IsPartition (k + a) (k + b) (Q.map (fun p => (k + p.1, k + p.2))) := by
  induction Q with
  | nil =>
    intro a b h
    have hab : a = b := h
    subst hab
    exact rfl
  | cons p rest ih =>
    obtain ⟨l, r⟩ := p
    intro a b h
    obtain ⟨h1, h2, h3, h4⟩ := h
    subst h1
    exact ⟨rfl, by omega, by omega, ih (r + 1) b h4⟩

theorem partitionValue_append_left (xs ys : List Employee) (P : List (Nat × Nat)) :
    ∀ a b, b ≤ xs.length → IsPartition a b P →
      partitionValue (xs ++ ys) P = partitionValue xs P := by
  induction P with
  | nil => intro a b _ _; rfl
  | cons p rest ih =>
    obtain ⟨l, r⟩ := p
    intro a b hb h
    obtain ⟨h1, h2, h3, h4⟩ := h
    rw [partitionValue_cons, partitionValue_cons, ih (r + 1) b hb h4]
    simp only
    rw [teamProductivity_append_left xs ys l r h2 (by omega)]

theorem partitionValue_append_right (xs ys : List Employee) (Q : List (Nat × Nat)) :
    ∀ a b, b ≤ ys.length → IsPartition a b Q →
      partitionValue (xs ++ ys) (Q.map (fun p => (xs.length + p.1, xs.length + p.2)))
        = partitionValue ys Q := by
  induction Q with
  | nil => intro a b _ _; rfl
  | cons p rest ih =>
    obtain ⟨l, r⟩ := p
    intro a b hb h
    obtain ⟨h1, h2, h3, h4⟩ := h
    rw [List.map_cons, partitionValue_cons, partitionValue_cons, ih (r + 1) b hb h4]
    simp only
    rw [teamProductivity_append_right xs ys l r h2 (by omega)]

theorem bounded_append (xs ys : List Employee) (h : Bounded (xs ++ ys)) :
    Bounded xs ∧ Bounded ys := by
  unfold Bounded at h ⊢
  rw [List.map_append, List.sum_append] at h
  have h1 := weight_nonneg xs
  have h2 := weight_nonneg ys
  constructor <;> linarith

/-! ## Sums on a bounded input stay in the `long long` range -/

theorem teamProductivity_upper (employees : List Employee) (l r : Nat) (hlr : l ≤ r)
    (hr : r < employees.length) :
    teamProductivity employees l r
      ≤ weightBefore employees (r + 1) - weightBefore employees l := by
  have hne := team_ne_nil employees l r hlr
  obtain ⟨_, h2, _⟩ := teamProductivity_spec employees l r hne
  obtain ⟨lang, hl⟩ := exists_isTop employees l r hne
  rw [← team_weight employees l r hlr hr]
  exact le_trans (h2 lang hl) (totalWith_bounds _ lang).2

theorem partitionValue_upper (employees : List Employee) (ranges : List (Nat × Nat)) :
    ∀ a b : Nat, b ≤ employees.length → IsPartition a b ranges →
      partitionValue employees ranges
        ≤ weightBefore employees b - weightBefore employees a := by
  induction ranges with
  | nil =>
    intro a b _ h
    have hab : a = b := h
    subst hab
    simp [partitionValue]
  | cons p rest ih =>
    obtain ⟨l, r⟩ := p
    intro a b hb h
    obtain ⟨h1, h2, h3, h4⟩ := h
    subst h1
    have ih2 := ih (r + 1) b hb h4
    have ht := teamProductivity_upper employees l r h2 (by omega)
    rw [partitionValue_cons]
    simp only
    linarith

/-- On a bounded input the total of a partition of a sub-interval is a `long long`,
and so is every sum of totals of partitions of disjoint sub-intervals. -/
theorem partitionValue_in_range (employees : List Employee) (hb : Bounded employees)
    (a b : Nat) (hle : b ≤ employees.length) (ranges : List (Nat × Nat))
    (h : IsPartition a b ranges) :
    LLONG_MIN ≤ partitionValue employees ranges ∧
    partitionValue employees ranges ≤ LLONG_MAX := by
  refine ⟨partitionValue_ge_min employees hb a b hle ranges h, ?_⟩
  have h1 := partitionValue_upper employees ranges a b hle h
  have h2 := weightBefore_le_total employees b
  have h3 := weightBefore_nonneg employees a
  unfold Bounded at hb
  linarith

theorem isPartition_snoc (P : List (Nat × Nat)) (p e : Nat) (hP : IsPartition 0 p P)
    (hpe : p ≤ e) : IsPartition 0 (e + 1) (P ++ [(p, e)]) :=
  isPartition_append P _ 0 p (e + 1) hP (isPartition_single p e hpe)

theorem partitionValue_snoc (employees : List Employee) (P : List (Nat × Nat)) (p e : Nat) :
    partitionValue employees (P ++ [(p, e)])
      = partitionValue employees P + teamProductivity employees p e := by
  rw [partitionValue_append, partitionValue_cons]
  simp [partitionValue]

theorem bounded_primary_le (employees : List Employee) (hb : Bounded employees) :
    ∀ e ∈ employees, e.A ≤ LLONG_MAX := by
  intro e he
  have h1 : magnitude e ≤ (employees.map magnitude).sum := by
    apply List.single_le_sum
    · intro x hx
      obtain ⟨e2, _, rfl⟩ := List.mem_map.mp hx
      exact magnitude_nonneg e2
    · exact List.mem_map_of_mem _ he
  have h2 : e.A ≤ magnitude e := le_trans (le_abs_self _) (le_max_left _ _)
  unfold Bounded at hb
  linarith

/-- On a bounded input the total of a partition is between `-LLONG_MAX` and
`LLONG_MAX`. -/
theorem partitionValue_abs_le (employees : List Employee) (hb : Bounded employees)
    (ranges : List (Nat × Nat)) (h : IsPartition 0 employees.length ranges) :
    -LLONG_MAX ≤ partitionValue employees ranges ∧
    partitionValue employees ranges ≤ LLONG_MAX := by
  have h1 := partitionValue_upper employees ranges 0 employees.length (le_refl _) h
  have h2 := partitionValue_lower employees ranges 0 employees.length (le_refl _) h
  have h3 := weightBefore_le_total employees employees.length
  have h4 := weightBefore_nonneg employees 0
  unfold Bounded at hb
  constructor <;> linarith

theorem solveDynamicProgramming_abs_le (employees : List Employee) (hb : Bounded employees) :
    -LLONG_MAX ≤ solveDynamicProgramming employees ∧
    solveDynamicProgramming employees ≤ LLONG_MAX := by
  obtain ⟨⟨P, hP, hv⟩, _⟩ := solveDynamicProgramming_isMax employees hb
  rw [← hv]
  exact partitionValue_abs_le employees hb P hP

theorem solveGreedy2_abs_le (employees : List Employee) (hb : Bounded employees) :
    ∃ g, solveGreedy2 employees = some g ∧ -LLONG_MAX ≤ g ∧ g ≤ LLONG_MAX := by
  obtain ⟨P, hP, hv⟩ := solveGreedy2_partition employees
  exact ⟨_, hv, partitionValue_abs_le employees hb P hP⟩

/-! ## The iterations of the greedy solvers on a bounded input -/

/-- C16: on a bounded input, an iteration of greedy 1 that starts at `p < n` with a
running total that is the total of the teams closed so far (a partition of `[0, p)`:
so it is at the start `(0, 0)`, and each iteration hands it on to the next)
ends its scan on `(maxLocalProd, bestEnd) = (teamProductivity(p, e), e)` where `e` is
the smallest end in `[p, n)` at which the team productivity from `p` is largest; the
new total `total + teamProductivity(p, e)` is again the total of a partition, of
`[0, e + 1)`, and a `long long`; the next iteration starts at `e + 1`, and the run
returns the new total plus the scores of the teams `R` closed afterwards. -/
theorem solveGreedy1_iteration (employees : List Employee) (hb : Bounded employees)
    (fuel : Nat) (totalProductivity : Int) (p : Nat) (hp : p < employees.length)
    (hfuel : employees.length - p ≤ fuel)
    (htotal : ∃ P, IsPartition 0 p P ∧ partitionValue employees P = totalProductivity) :
    ∃ e, p ≤ e ∧ e < employees.length ∧
      (∀ e2, p ≤ e2 → e2 < employees.length →
        teamProductivity employees p e2 ≤ teamProductivity employees p e) ∧
      (∀ e2, p ≤ e2 → e2 < e →
        teamProductivity employees p e2 < teamProductivity employees p e) ∧
      greedy1Scan employees p employees.length = (teamProductivity employees p e, e) ∧
      (∃ P, IsPartition 0 (e + 1) P ∧
        partitionValue employees P = totalProductivity + teamProductivity employees p e) ∧
      LLONG_MIN ≤ totalProductivity + teamProductivity employees p e ∧
      totalProductivity + teamProductivity employees p e ≤ LLONG_MAX ∧
      ∃ R, IsPartition (e + 1) employees.length R ∧
        greedy1Loop employees employees.length fuel
            (totalProductivity + teamProductivity employees p e, e + 1)
          = some (totalProductivity + teamProductivity employees p e
              + partitionValue employees R, employees.length) ∧
        greedy1Loop employees employees.length (fuel + 1) (totalProductivity, p)
          = some (totalProductivity + teamProductivity employees p e
              + partitionValue employees R, employees.length) := by
  have hlow : ∀ a, a < employees.length → LLONG_MIN ≤ teamProductivity employees a a := by
    intro a ha
    have h := partitionValue_ge_min employees hb a (a + 1) (by omega) [(a, a)]
      (isPartition_single a a (le_refl _))
    simpa [partitionValue] using h
  obtain ⟨h1, h2, h3, h4, h5⟩ :=
    greedy1Scan_first_max employees p employees.length hp (hlow p hp)
  obtain ⟨P, hP, hPv⟩ := htotal
  have hscan : greedy1Scan employees p employees.length
      = (teamProductivity employees p (greedy1Scan employees p employees.length).2,
          (greedy1Scan employees p employees.length).2) := Prod.ext h3 rfl
  generalize (greedy1Scan employees p employees.length).2 = e at h1 h2 h3 h4 h5 hscan
  have hnew : IsPartition 0 (e + 1) (P ++ [(p, e)]) := isPartition_snoc P p e hP h1
  have hval : partitionValue employees (P ++ [(p, e)])
      = totalProductivity + teamProductivity employees p e := by
    rw [partitionValue_snoc, hPv]
  have hrange := partitionValue_in_range employees hb 0 (e + 1) (by omega) _ hnew
  rw [hval] at hrange
  obtain ⟨R, hR, hres⟩ := greedy1Loop_spec employees employees.length hlow fuel (e + 1)
    (totalProductivity + teamProductivity employees p e) (by omega) (by omega)
  refine ⟨e, h1, h2, ?_, ?_, hscan, ⟨_, hnew, hval⟩, hrange.1, hrange.2, R, hR, hres, ?_⟩
  · intro e2 he1 he2
    rw [← h3]; exact h4 e2 he1 he2
  · intro e2 he1 he2
    rw [← h3]; exact h5 e2 he1 he2
  · rw [greedy1Loop_step employees _ fuel totalProductivity p hp, hscan]
    exact hres

theorem solveGreedy1_iteration_witness :
    (Bounded [⟨2, 0, "a"⟩, ⟨1, 7, "b"⟩, ⟨3, 3, "a"⟩] ∧
      0 < [(⟨2, 0, "a"⟩ : Employee), ⟨1, 7, "b"⟩, ⟨3, 3, "a"⟩].length ∧
      [(⟨2, 0, "a"⟩ : Employee), ⟨1, 7, "b"⟩, ⟨3, 3, "a"⟩].length - 0 ≤ 3 ∧
      ∃ P, IsPartition 0 0 P ∧
        partitionValue [⟨2, 0, "a"⟩, ⟨1, 7, "b"⟩, ⟨3, 3, "a"⟩] P = 0) ∧
    ∃ e, 0 ≤ e ∧ e < [(⟨2, 0, "a"⟩ : Employee), ⟨1, 7, "b"⟩, ⟨3, 3, "a"⟩].length ∧
      (∀ e2, 0 ≤ e2 → e2 < [(⟨2, 0, "a"⟩ : Employee), ⟨1, 7, "b"⟩, ⟨3, 3, "a"⟩].length →
        teamProductivity [⟨2, 0, "a"⟩, ⟨1, 7, "b"⟩, ⟨3, 3, "a"⟩] 0 e2
          ≤ teamProductivity [⟨2, 0, "a"⟩, ⟨1, 7, "b"⟩, ⟨3, 3, "a"⟩] 0 e) ∧
      (∀ e2, 0 ≤ e2 → e2 < e →
        teamProductivity [⟨2, 0, "a"⟩, ⟨1, 7, "b"⟩, ⟨3, 3, "a"⟩] 0 e2
          < teamProductivity [⟨2, 0, "a"⟩, ⟨1, 7, "b"⟩, ⟨3, 3, "a"⟩] 0 e) ∧
      greedy1Scan [⟨2, 0, "a"⟩, ⟨1, 7, "b"⟩, ⟨3, 3, "a"⟩] 0 3
        = (teamProductivity [⟨2, 0, "a"⟩, ⟨1, 7, "b"⟩, ⟨3, 3, "a"⟩] 0 e, e) ∧
      (∃ P, IsPartition 0 (e + 1) P ∧
        partitionValue [⟨2, 0, "a"⟩, ⟨1, 7, "b"⟩, ⟨3, 3, "a"⟩] P
          = 0 + teamProductivity [⟨2, 0, "a"⟩, ⟨1, 7, "b"⟩, ⟨3, 3, "a"⟩] 0 e) ∧
      LLONG_MIN ≤ 0 + teamProductivity [⟨2, 0, "a"⟩, ⟨1, 7, "b"⟩, ⟨3, 3, "a"⟩] 0 e ∧
      0 + teamProductivity [⟨2, 0, "a"⟩, ⟨1, 7, "b"⟩, ⟨3, 3, "a"⟩] 0 e ≤ LLONG_MAX ∧
      ∃ R, IsPartition (e + 1) 3 R ∧
        greedy1Loop [⟨2, 0, "a"⟩, ⟨1, 7, "b"⟩, ⟨3, 3, "a"⟩] 3 3
            (0 + teamProductivity [⟨2, 0, "a"⟩, ⟨1, 7, "b"⟩, ⟨3, 3, "a"⟩] 0 e, e + 1)
          = some (0 + teamProductivity [⟨2, 0, "a"⟩, ⟨1, 7, "b"⟩, ⟨3, 3, "a"⟩] 0 e
              + partitionValue [⟨2, 0, "a"⟩, ⟨1, 7, "b"⟩, ⟨3, 3, "a"⟩] R, 3) ∧
        greedy1Loop [⟨2, 0, "a"⟩, ⟨1, 7, "b"⟩, ⟨3, 3, "a"⟩] 3 (3 + 1) (0, 0)
          = some (0 + teamProductivity [⟨2, 0, "a"⟩, ⟨1, 7, "b"⟩, ⟨3, 3, "a"⟩] 0 e
              + partitionValue [⟨2, 0, "a"⟩, ⟨1, 7, "b"⟩, ⟨3, 3, "a"⟩] R, 3) :=
  ⟨⟨by decide, by decide, by decide, [], rfl, rfl⟩,
    solveGreedy1_iteration [⟨2, 0, "a"⟩, ⟨1, 7, "b"⟩, ⟨3, 3, "a"⟩] (by decide) 3 0 0
      (by decide) (by decide) ⟨[], rfl, rfl⟩⟩

/-- C17: on a bounded input, an iteration of greedy 2 that starts at `p < n` with a
running total that is the total of the teams closed so far (a partition of `[0, p)`:
so it is at the start `(0, 0)`, and each iteration hands it on to the next)
ends its expansion on `teamEnd = e`, where every `k` with `p < k <= e` was accepted
(the expanded team scores at least the current team plus `k` alone) and `e + 1`, if
it is below `n`, was rejected; the new total `total + teamProductivity(p, e)` is again
the total of a partition, of `[0, e + 1)`, and a `long long`; the next iteration starts
at `e + 1`, and the run returns the new total plus the scores of the teams `R` closed
afterwards. -/
theorem solveGreedy2_iteration (employees : List Employee) (hb : Bounded employees)
    (fuel : Nat) (totalProductivity : Int) (p : Nat) (hp : p < employees.length)
    (hfuel : employees.length - p ≤ fuel)
    (htotal : ∃ P, IsPartition 0 p P ∧ partitionValue employees P = totalProductivity) :
    ∃ e, p ≤ e ∧ e < employees.length ∧
      (∀ k, p < k → k ≤ e →
        teamProductivity employees p k
          ≥ teamProductivity employees p (k - 1) + teamProductivity employees k k) ∧
      (e + 1 < employees.length →
        teamProductivity employees p (e + 1)
          < teamProductivity employees p e + teamProductivity employees (e + 1) (e + 1)) ∧
      greedy2Expand employees p (employees.length - (p + 1)) (p + 1) p = e ∧
      (∃ P, IsPartition 0 (e + 1) P ∧
        partitionValue employees P = totalProductivity + teamProductivity employees p e) ∧
      LLONG_MIN ≤ totalProductivity + teamProductivity employees p e ∧
      totalProductivity + teamProductivity employees p e ≤ LLONG_MAX ∧
      ∃ R, IsPartition (e + 1) employees.length R ∧
        greedy2Loop employees employees.length fuel
            (totalProductivity + teamProductivity employees p e, e + 1)
          = some (totalProductivity + teamProductivity employees p e
              + partitionValue employees R, employees.length) ∧
        greedy2Loop employees employees.length (fuel + 1) (totalProductivity, p)
          = some (totalProductivity + teamProductivity employees p e
              + partitionValue employees R, employees.length) := by
  obtain ⟨h1, h2, h3, h4⟩ := greedy2Expand_spec employees p (employees.length - (p + 1))
    (p + 1) p rfl
  have hstep := greedy2Loop_step employees employees.length fuel totalProductivity p hp
  obtain ⟨P, hP, hPv⟩ := htotal
  generalize he : greedy2Expand employees p (employees.length - (p + 1)) (p + 1) p = e
    at h1 h2 h3 h4 hstep
  have hlt : e < employees.length := by omega
  have hnew : IsPartition 0 (e + 1) (P ++ [(p, e)]) := isPartition_snoc P p e hP h1
  have hval : partitionValue employees (P ++ [(p, e)])
      = totalProductivity + teamProductivity employees p e := by
    rw [partitionValue_snoc, hPv]
  have hrange := partitionValue_in_range employees hb 0 (e + 1) (by omega) _ hnew
  rw [hval] at hrange
  obtain ⟨R, hR, hres⟩ := greedy2Loop_spec employees employees.length fuel (e + 1)
    (totalProductivity + teamProductivity employees p e) (by omega) (by omega)
  refine ⟨e, h1, hlt, ?_, ?_, rfl, ⟨_, hnew, hval⟩, hrange.1, hrange.2, R, hR, hres, ?_⟩
  · intro k hk1 hk2
    exact h3 k hk1 hk2
  · intro hlt2
    exact h4 (by omega)
  · rw [hstep]
    exact hres

theorem solveGreedy2_iteration_witness :
    (Bounded [⟨2, 1, "x"⟩, ⟨3, 9, "y"⟩, ⟨5, 5, "x"⟩] ∧
      1 < [(⟨2, 1, "x"⟩ : Employee), ⟨3, 9, "y"⟩, ⟨5, 5, "x"⟩].length ∧
      [(⟨2, 1, "x"⟩ : Employee), ⟨3, 9, "y"⟩, ⟨5, 5, "x"⟩].length - 1 ≤ 2 ∧
      ∃ P, IsPartition 0 1 P ∧
        partitionValue [⟨2, 1, "x"⟩, ⟨3, 9, "y"⟩, ⟨5, 5, "x"⟩] P = 2) ∧
    ∃ e, 1 ≤ e ∧ e < [(⟨2, 1, "x"⟩ : Employee), ⟨3, 9, "y"⟩, ⟨5, 5, "x"⟩].length ∧
      (∀ k, 1 < k → k ≤ e →
        teamProductivity [⟨2, 1, "x"⟩, ⟨3, 9, "y"⟩, ⟨5, 5, "x"⟩] 1 k
          ≥ teamProductivity [⟨2, 1, "x"⟩, ⟨3, 9, "y"⟩, ⟨5, 5, "x"⟩] 1 (k - 1)
            + teamProductivity [⟨2, 1, "x"⟩, ⟨3, 9, "y"⟩, ⟨5, 5, "x"⟩] k k) ∧
      (e + 1 < [(⟨2, 1, "x"⟩ : Employee), ⟨3, 9, "y"⟩, ⟨5, 5, "x"⟩].length →
        teamProductivity [⟨2, 1, "x"⟩, ⟨3, 9, "y"⟩, ⟨5, 5, "x"⟩] 1 (e + 1)
          < teamProductivity [⟨2, 1, "x"⟩, ⟨3, 9, "y"⟩, ⟨5, 5, "x"⟩] 1 e
            + teamProductivity [⟨2, 1, "x"⟩, ⟨3, 9, "y"⟩, ⟨5, 5, "x"⟩] (e + 1) (e + 1)) ∧
      greedy2Expand [⟨2, 1, "x"⟩, ⟨3, 9, "y"⟩, ⟨5, 5, "x"⟩] 1 (3 - (1 + 1)) (1 + 1) 1 = e ∧
      (∃ P, IsPartition 0 (e + 1) P ∧
        partitionValue [⟨2, 1, "x"⟩, ⟨3, 9, "y"⟩, ⟨5, 5, "x"⟩] P
          = 2 + teamProductivity [⟨2, 1, "x"⟩, ⟨3, 9, "y"⟩, ⟨5, 5, "x"⟩] 1 e) ∧
      LLONG_MIN ≤ 2 + teamProductivity [⟨2, 1, "x"⟩, ⟨3, 9, "y"⟩, ⟨5, 5, "x"⟩] 1 e ∧
      2 + teamProductivity [⟨2, 1, "x"⟩, ⟨3, 9, "y"⟩, ⟨5, 5, "x"⟩] 1 e ≤ LLONG_MAX ∧
      ∃ R, IsPartition (e + 1) 3 R ∧
        greedy2Loop [⟨2, 1, "x"⟩, ⟨3, 9, "y"⟩, ⟨5, 5, "x"⟩] 3 2
            (2 + teamProductivity [⟨2, 1, "x"⟩, ⟨3, 9, "y"⟩, ⟨5, 5, "x"⟩] 1 e, e + 1)
          = some (2 + teamProductivity [⟨2, 1, "x"⟩, ⟨3, 9, "y"⟩, ⟨5, 5, "x"⟩] 1 e
              + partitionValue [⟨2, 1, "x"⟩, ⟨3, 9, "y"⟩, ⟨5, 5, "x"⟩] R, 3) ∧
        greedy2Loop [⟨2, 1, "x"⟩, ⟨3, 9, "y"⟩, ⟨5, 5, "x"⟩] 3 (2 + 1) (2, 1)
          = some (2 + teamProductivity [⟨2, 1, "x"⟩, ⟨3, 9, "y"⟩, ⟨5, 5, "x"⟩] 1 e
              + partitionValue [⟨2, 1, "x"⟩, ⟨3, 9, "y"⟩, ⟨5, 5, "x"⟩] R, 3) :=
  ⟨⟨by decide, by decide, by decide, [(0, 0)], ⟨rfl, le_refl 0, by decide, rfl⟩, by decide⟩,
    solveGreedy2_iteration [⟨2, 1, "x"⟩, ⟨3, 9, "y"⟩, ⟨5, 5, "x"⟩] (by decide) 2 2 1
      (by decide) (by decide)
      ⟨[(0, 0)], ⟨rfl, le_refl 0, by decide, rfl⟩, by decide⟩⟩

/-! ## Greedy 2 against the teams of one, on a bounded input -/

/-- C19: on a bounded input greedy 2 returns at least the sum of all primary
productivities, the value of the partition into teams of one: every team it closes
scores at least the sum of the primary productivities of its members. -/
theorem solveGreedy2_ge_singletons (employees : List Employee) (hb : Bounded employees) :
    ∃ g, solveGreedy2 employees = some g ∧ (employees.map Employee.A).sum ≤ g := by
  obtain ⟨g, hg, hge⟩ := greedy2Loop_ge_primary employees (bounded_primary_le employees hb)
    (employees.length + 1) 0 0 (Nat.zero_le _) (by omega)
  refine ⟨g, ?_, ?_⟩
  · unfold solveGreedy2
    rw [hg]
    rfl
  · rw [primaryBefore_zero, primaryBefore_length] at hge
    omega

theorem solveGreedy2_ge_singletons_witness :
    Bounded [⟨2, 1, "x"⟩, ⟨3, 9, "y"⟩, ⟨5, 5, "x"⟩, ⟨0, 8, "z"⟩] ∧
    ∃ g, solveGreedy2 [⟨2, 1, "x"⟩, ⟨3, 9, "y"⟩, ⟨5, 5, "x"⟩, ⟨0, 8, "z"⟩] = some g ∧
      ([(⟨2, 1, "x"⟩ : Employee), ⟨3, 9, "y"⟩, ⟨5, 5, "x"⟩, ⟨0, 8, "z"⟩].map Employee.A).sum
        ≤ g :=
  ⟨by decide, solveGreedy2_ge_singletons _ (by decide)⟩

/-! ## The optimum of a concatenation -/

/-- C21: the optimum is superadditive under concatenation: when `xs ++ ys` is a bounded
input, dynamic programming on `xs ++ ys` returns at least the sum of what it returns
on `xs` and on `ys`, because a range of `xs ++ ys` that lies in `xs`, or in `ys` moved
by the length of `xs`, scores what it scores there. -/
theorem solveDynamicProgramming_append (xs ys : List Employee) (hb : Bounded (xs ++ ys)) :
    (∀ l r, l ≤ r → r < xs.length →
      teamProductivity (xs ++ ys) l r = teamProductivity xs l r) ∧
    (∀ l r, l ≤ r → r < ys.length →
      teamProductivity (xs ++ ys) (xs.length + l) (xs.length + r)
        = teamProductivity ys l r) ∧
    solveDynamicProgramming (xs ++ ys)
      ≥ solveDynamicProgramming xs + solveDynamicProgramming ys := by
  obtain ⟨hx, hy⟩ := bounded_append xs ys hb
  refine ⟨fun l r hlr hr => teamProductivity_append_left xs ys l r hlr hr,
    fun l r hlr hr => teamProductivity_append_right xs ys l r hlr hr, ?_⟩
  obtain ⟨⟨P, hP, hPv⟩, _⟩ := solveDynamicProgramming_isMax xs hx
  obtain ⟨⟨Q, hQ, hQv⟩, _⟩ := solveDynamicProgramming_isMax ys hy
  have hshift := isPartition_shift xs.length Q 0 ys.length hQ
  have hR : IsPartition 0 (xs ++ ys).length
      (P ++ Q.map (fun p => (xs.length + p.1, xs.length + p.2))) := by
    rw [List.length_append]
    exact isPartition_append P _ 0 xs.length (xs.length + ys.length) hP hshift
  have h := partitionValue_le_solveDynamicProgramming (xs ++ ys) _ hR
  rw [partitionValue_append,
    partitionValue_append_left xs ys P 0 xs.length (le_refl _) hP,
    partitionValue_append_right xs ys Q 0 ys.length (le_refl _) hQ, hPv, hQv] at h
  exact h

theorem solveDynamicProgramming_append_witness :
    Bounded ([⟨5, 1, "go"⟩, ⟨7, 2, "go"⟩] ++ [⟨-3, 20, "c"⟩, ⟨4, 4, "rust"⟩]) ∧
    solveDynamicProgramming ([⟨5, 1, "go"⟩, ⟨7, 2, "go"⟩] ++ [⟨-3, 20, "c"⟩, ⟨4, 4, "rust"⟩])
      ≥ solveDynamicProgramming [⟨5, 1, "go"⟩, ⟨7, 2, "go"⟩]
        + solveDynamicProgramming [⟨-3, 20, "c"⟩, ⟨4, 4, "rust"⟩] :=
  ⟨by decide,
    (solveDynamicProgramming_append [⟨5, 1, "go"⟩, ⟨7, 2, "go"⟩]
      [⟨-3, 20, "c"⟩, ⟨4, 4, "rust"⟩] (by decide)).2.2⟩

/-! ## An input on which greedy 1 loses -/

theorem chars_a_lt_b : (['a'] : List Char) < ['b'] := by decide

theorem chars_b_not_lt_a : ¬ (['b'] : List Char) < ['a'] := by decide

theorem greedy2Adversary_bounded (V : Int) (h0 : 0 ≤ V) (h1 : V + 1 ≤ LLONG_MAX) :
    Bounded (greedy2Adversary V) := by
  unfold LLONG_MAX at h1
  simp [Bounded, greedy2Adversary, magnitude, abs_of_nonneg h0, LLONG_MAX]
  omega

theorem greedy2Adversary_nonneg (V : Int) (h0 : 0 ≤ V) :
    ∀ e ∈ greedy2Adversary V, 0 ≤ e.A ∧ 0 ≤ e.B := by
  intro e he
  simp [greedy2Adversary] at he
  rcases he with rfl | rfl | rfl <;> simp [h0]

theorem greedy2Adversary_0_0 (V : Int) : teamProductivity (greedy2Adversary V) 0 0 = 1 := by
  simp [greedy2Adversary, teamProductivity, languageFrequency, loopIndices,
    candidateProductivity, mapIncrement, List.range', LLONG_MAX]

theorem greedy2Adversary_1_1 (V : Int) : teamProductivity (greedy2Adversary V) 1 1 = 0 := by
  simp [greedy2Adversary, teamProductivity, languageFrequency, loopIndices,
    candidateProductivity, mapIncrement, List.range', LLONG_MAX]

theorem greedy2Adversary_2_2 (V : Int) : teamProductivity (greedy2Adversary V) 2 2 = 0 := by
  simp [greedy2Adversary, teamProductivity, languageFrequency, loopIndices,
    candidateProductivity, mapIncrement, List.range', LLONG_MAX]

theorem greedy2Adversary_0_1 (V : Int) (h0 : 0 ≤ V) :
    teamProductivity (greedy2Adversary V) 0 1 = 0 := by
  simp [greedy2Adversary, teamProductivity, languageFrequency, loopIndices,
    candidateProductivity, mapIncrement, List.range', LLONG_MAX, chars_a_lt_b, chars_b_not_lt_a]
  omega

theorem greedy2Adversary_1_2 (V : Int) (h0 : 0 ≤ V) :
    teamProductivity (greedy2Adversary V) 1 2 = 0 := by
  simp [greedy2Adversary, teamProductivity, languageFrequency, loopIndices,
    candidateProductivity, mapIncrement, List.range', LLONG_MAX, chars_a_lt_b, chars_b_not_lt_a]
  omega

theorem greedy2Adversary_0_2 (V : Int) (h1 : V + 1 ≤ LLONG_MAX) :
    teamProductivity (greedy2Adversary V) 0 2 = 1 + V := by
  unfold LLONG_MAX at h1
  simp [greedy2Adversary, teamProductivity, languageFrequency, loopIndices,
    candidateProductivity, mapIncrement, List.range', LLONG_MAX, chars_a_lt_b, chars_b_not_lt_a]
  omega

/-- Greedy 2 rejects employee 1 at position 0 and closes `[0, 0]`; at position 1 it
accepts employee 2 and closes `[1, 2]`. -/
theorem solveGreedy2_adversary (V : Int) (h0 : 0 ≤ V) :
    solveGreedy2 (greedy2Adversary V) = some 1 := by
  have hlen : (greedy2Adversary V).length = 4 - 1 := rfl
  have e0 : greedy2Expand (greedy2Adversary V) 0 2 1 0 = 0 := by
    simp [greedy2Expand, greedy2Adversary_0_0, greedy2Adversary_1_1, greedy2Adversary_0_1 V h0]
  have e1 : greedy2Expand (greedy2Adversary V) 1 1 2 1 = 2 := by
    simp [greedy2Expand, greedy2Adversary_1_1, greedy2Adversary_2_2, greedy2Adversary_1_2 V h0]
  unfold solveGreedy2
  rw [hlen]
  simp only [Nat.reduceSub, Nat.reduceAdd]
  rw [greedy2Loop_step _ _ _ _ _ (by decide)]
  simp only [Nat.reduceSub, Nat.reduceAdd]
  rw [e0, greedy2Loop_step _ _ _ _ _ (by decide)]
  simp only [Nat.reduceSub, Nat.reduceAdd]
  rw [e1, greedy2Loop]
  simp [greedy2Adversary_0_0, greedy2Adversary_1_2 V h0]

theorem solveDynamicProgramming_adversary2 (V : Int) (h1 : V + 1 ≤ LLONG_MAX) :
    1 + V ≤ solveDynamicProgramming (greedy2Adversary V) := by
  have hP : IsPartition 0 (greedy2Adversary V).length [(0, 2)] := by
    show IsPartition 0 3 [(0, 2)]
    simp [IsPartition]
  have h := partitionValue_le_solveDynamicProgramming (greedy2Adversary V) _ hP
  simp only [partitionValue, List.map_cons, List.map_nil, List.sum_cons, List.sum_nil,
    greedy2Adversary_0_2 V h1] at h
  omega

/-- C14 (as stated) fails: dynamic programming returns at most `LLONG_MAX`
on a bounded input, so no bounded input with non-negative productivities has a greedy 2
result `g > 0` with `solveDynamicProgramming >= 2^63 * g`: the claim fails at
`K = 9223372036854775808`. -/
theorem solveGreedy2_ratio_limit :
    ¬ ∃ (employees : List Employee) (g : Int), Bounded employees ∧
      (∀ e ∈ employees, 0 ≤ e.A ∧ 0 ≤ e.B) ∧ solveGreedy2 employees = some g ∧ 0 < g ∧
      solveDynamicProgramming employees ≥ 9223372036854775808 * g := by
  rintro ⟨employees, g, hb, _, _, hpos, hratio⟩
  have hdp := (solveDynamicProgramming_abs_le employees hb).2
  unfold LLONG_MAX at hdp
  omega

/-- C14 (as amended): the ratio between the optimum and greedy 2 is as large as a 64-bit
result allows: for every integer `K` with `1 <= K <= LLONG_MAX` there is a bounded
sequence of three employees with all productivities non-negative on which greedy 2
returns `g = 1 > 0` and dynamic programming returns a `long long` that is at least
`K * g`. -/
theorem solveGreedy2_ratio_attained (K : Int) (h1 : 1 ≤ K) (h2 : K ≤ LLONG_MAX) :
    ∃ (employees : List Employee) (g : Int), employees.length = 3 ∧ Bounded employees ∧
      (∀ e ∈ employees, 0 ≤ e.A ∧ 0 ≤ e.B) ∧ solveGreedy2 employees = some g ∧ g = 1 ∧
      0 < g ∧ solveDynamicProgramming employees ≤ LLONG_MAX ∧
      solveDynamicProgramming employees ≥ K * g := by
  have h0 : 0 ≤ K - 1 := by omega
  have hV : K - 1 + 1 ≤ LLONG_MAX := by omega
  have hb := greedy2Adversary_bounded (K - 1) h0 hV
  have hdp := solveDynamicProgramming_adversary2 (K - 1) hV
  refine ⟨greedy2Adversary (K - 1), 1, rfl, hb, greedy2Adversary_nonneg (K - 1) h0,
    solveGreedy2_adversary (K - 1) h0, rfl, by decide,
    (solveDynamicProgramming_abs_le _ hb).2, ?_⟩
  omega

theorem solveGreedy2_ratio_attained_witness :
    ((1 : Int) ≤ 9223372036854775807 ∧ (9223372036854775807 : Int) ≤ LLONG_MAX) ∧
    ∃ (employees : List Employee) (g : Int), employees.length = 3 ∧ Bounded employees ∧
      (∀ e ∈ employees, 0 ≤ e.A ∧ 0 ≤ e.B) ∧ solveGreedy2 employees = some g ∧ g = 1 ∧
      0 < g ∧ solveDynamicProgramming employees ≤ LLONG_MAX ∧
      solveDynamicProgramming employees ≥ 9223372036854775807 * g :=
  ⟨⟨by decide, by decide⟩,
    solveGreedy2_ratio_attained 9223372036854775807 (by decide) (by decide)⟩

end CppCorp
